import Mathlib

/-!
Verification of the sprite-slicing utilities of the Spricut repository
against its natural-language specification.

The source operates on HTML canvas ImageData: a flat row-major RGBA byte
buffer of size width * height * 4.  We embed such a buffer as a `List RGBA`
together with explicit width and height; the accessor `Image.pix x y`
corresponds to reading the four bytes at offset `(y * width + x) * 4`.
Canvas/context acquisition (`canvas.getContext`) is an environment effect
that the algorithms assume to succeed; the embedding models the pixel-level
computations that run once a context is available.  Scaled drawing
(`ctx.drawImage`) delegates resampling to the external PixelBuffer
collaborator, so a composited frame's pixel content is embedded symbolically
as the exact sequence of draw parameters (`DrawSpec`) the source passes to
the canvas, which determine the produced bitmap.
-/

/-- One RGBA pixel: the four consecutive bytes of the ImageData buffer. -/
structure RGBA where
  r : ℕ
  g : ℕ
  b : ℕ
  a : ℕ
deriving DecidableEq, Repr

/-- An RGB color, as in the source's Color interface. -/
structure Color where
  r : ℕ
  g : ℕ
  b : ℕ
deriving DecidableEq, Repr

/-- A decoded image: width, height and the flat row-major RGBA buffer. -/
structure Image where
  width : ℕ
  height : ℕ
  data : List RGBA
deriving DecidableEq, Repr

/-- Reading pixel (x, y): the source reads data at index (y * width + x) * 4.
Out-of-range reads (which the algorithms never perform on well-formed
buffers) yield the transparent-black pixel, matching a fresh canvas. -/
def Image.pix (img : Image) (x y : ℕ) : RGBA :=
  img.data.getD (y * img.width + x) ⟨0, 0, 0, 0⟩

/-- Manhattan RGB distance between a pixel and a reference color, as computed
by the source: abs (r - br) + abs (g - bg) + abs (b - bb) on byte values. -/
def colorDist (p : RGBA) (c : Color) : ℕ :=
  ((p.r : ℤ) - c.r).natAbs + ((p.g : ℤ) - c.g).natAbs + ((p.b : ℤ) - c.b).natAbs

/-- Manhattan RGB distance between two pixels, used by the flood-fill
selector against the seed pixel's own color. -/
def pixelDist (p q : RGBA) : ℕ :=
  ((p.r : ℤ) - q.r).natAbs + ((p.g : ℤ) - q.g).natAbs + ((p.b : ℤ) - q.b).natAbs

/-- Source function removeBackgroundFromContext, restricted to one pixel of
the buffer: skip already-transparent pixels, otherwise zero the alpha when
the Manhattan distance to the background color is within the tolerance.
The source fixes the tolerance constant to 30 inside the function body; the
embedding takes it as a parameter (the spec presents chromaKey with a
tolerance defaulting to 30) and `removeBackgroundFromContext` below
instantiates it with 30, recovering the source text. -/
def chromaKeyPixel (bg : Color) (tol : ℕ) (p : RGBA) : RGBA :=
  if p.a = 0 then p
  else if colorDist p bg ≤ tol then ⟨p.r, p.g, p.b, 0⟩ else p

/-- The per-buffer chroma key: the source loops i += 4 over the flat byte
array, which is exactly a map of `chromaKeyPixel` over the pixel list. -/
def chromaKeyData (bg : Color) (tol : ℕ) (data : List RGBA) : List RGBA :=
  data.map (chromaKeyPixel bg tol)

/-- Source helper removeBackgroundFromContext with its hard-coded
tolerance of 30. -/
def removeBackgroundFromContext (bg : Color) (data : List RGBA) : List RGBA :=
  chromaKeyData bg 30 data

/-- Zero the alpha channel of a pixel, keeping the color channels. -/
def zeroAlpha (p : RGBA) : RGBA :=
  ⟨p.r, p.g, p.b, 0⟩

/-- Per-pixel pass of applyTransparency, tracking the flat pixel index. -/
def maskGo (mask : List ℕ) : ℕ → List RGBA → List RGBA
  | _, [] => []
  | i, p :: ps =>
    (if mask.getD i 0 = 1 then zeroAlpha p else p) :: maskGo mask (i + 1) ps

/-- Source function applyTransparency: for each i below mask.length with
mask i = 1, set the alpha byte of pixel i to 0.  A JS typed-array write at
an index at or beyond the buffer length is silently discarded, and pixels
at indices at or beyond mask.length are never touched, so pixel i is zeroed
exactly when mask.getD i 0 = 1; there is no dimension check anywhere in the
source, and the function always returns normally. -/
def applyTransparency (img : Image) (mask : List ℕ) : Image :=
  { img with data := maskGo mask 0 img.data }

/-- The four neighbor coordinates probed by both flood-fill loops of the
source, in source order: right, left, down, up.  Integer coordinates, since
x - 1 may be negative before the bounds check. -/
def neighborCoords (x y : ℕ) : List (ℤ × ℤ) :=
  [((x : ℤ) + 1, (y : ℤ)), ((x : ℤ) - 1, (y : ℤ)),
   ((x : ℤ), (y : ℤ) + 1), ((x : ℤ), (y : ℤ) - 1)]

/-- One neighbor probe of the source's inner loop: bounds check, visited
check, membership predicate P; on success mark the pixel visited and push
it.  The work list is kept top-first: the source pushes at and pops from
the end of a JS array, which we mirror with cons and head. -/
def tryVisit (P : ℕ → Bool) (w h : ℕ) (st : Finset ℕ × List ℕ) (n : ℤ × ℤ) :
    Finset ℕ × List ℕ :=
  if 0 ≤ n.1 ∧ n.1 < (w : ℤ) ∧ 0 ≤ n.2 ∧ n.2 < (h : ℤ) then
    if n.2.toNat * w + n.1.toNat ∉ st.1 ∧ P (n.2.toNat * w + n.1.toNat) = true then
      (insert (n.2.toNat * w + n.1.toNat) st.1, (n.2.toNat * w + n.1.toNat) :: st.2)
    else st
  else st

/-- Termination measure of the flood-fill loop: twice the number of
unvisited in-range indices plus the work-list length.  Each loop iteration
strictly decreases it. -/
def fillMeasure (w h : ℕ) (st : Finset ℕ × List ℕ) : ℕ :=
  2 * ((Finset.range (w * h)) \ st.1).card + st.2.length

/-- The explicit-stack flood-fill loop shared by performFloodFill and
detectSprites, with fuel bounding the number of iterations (the fuel is an
embedding artifact: floodLoop below always supplies strictly more fuel than
the measure, which the lemmas show is enough, so the source's unbounded
while loop is modelled exactly).  Per iteration: pop the top index, feed it
to the accumulator function f (detectSprites folds its min/max bounding-box
update there; performFloodFill accumulates nothing), then probe the four
neighbors. -/
def floodLoopF (P : ℕ → Bool) (w h : ℕ) (f : β → ℕ → β) :
    ℕ → Finset ℕ × List ℕ → β → Finset ℕ × β
  | 0, st, acc => (st.1, acc)
  | _ + 1, (v, []), acc => (v, acc)
  | fuel + 1, (v, idx :: rest), acc =>
      floodLoopF P w h f fuel
        ((neighborCoords (idx % w) (idx / w)).foldl (tryVisit P w h) (v, rest))
        (f acc idx)

/-- The flood-fill loop, run with always-sufficient fuel. -/
def floodLoop (P : ℕ → Bool) (w h : ℕ) (f : β → ℕ → β)
    (st : Finset ℕ × List ℕ) (acc : β) : Finset ℕ × β :=
  floodLoopF P w h f (2 * (w * h) + st.2.length + 1) st acc

theorem tryVisit_measure_le (P : ℕ → Bool) (w h : ℕ) (st : Finset ℕ × List ℕ)
    (n : ℤ × ℤ) : fillMeasure w h (tryVisit P w h st n) ≤ fillMeasure w h st := by
  unfold tryVisit
  split
  · next hb =>
    split
    · next hfresh =>
      have hx : n.1.toNat < w := by omega
      have hy : n.2.toNat < h := by omega
      have hlt : n.2.toNat * w + n.1.toNat < w * h := by
        calc n.2.toNat * w + n.1.toNat < n.2.toNat * w + w := by omega
        _ = (n.2.toNat + 1) * w := by ring
        _ ≤ h * w := Nat.mul_le_mul_right w (by omega)
        _ = w * h := Nat.mul_comm h w
      have hmem : n.2.toNat * w + n.1.toNat ∈ Finset.range (w * h) \ st.1 :=
        Finset.mem_sdiff.mpr ⟨Finset.mem_range.mpr hlt, hfresh.1⟩
      have hcard : ((Finset.range (w * h)) \ insert (n.2.toNat * w + n.1.toNat) st.1).card
          = ((Finset.range (w * h)) \ st.1).card - 1 := by
        rw [Finset.sdiff_insert]
        exact Finset.card_erase_of_mem hmem
      have hpos : 0 < ((Finset.range (w * h)) \ st.1).card :=
        Finset.card_pos.mpr ⟨_, hmem⟩
      simp only [fillMeasure, hcard, List.length_cons]
      omega
    · exact le_refl _
  · exact le_refl _

theorem foldl_tryVisit_measure_le (P : ℕ → Bool) (w h : ℕ)
    (l : List (ℤ × ℤ)) :
    ∀ st : Finset ℕ × List ℕ,
      fillMeasure w h (l.foldl (tryVisit P w h) st) ≤ fillMeasure w h st := by
  induction l with
  | nil => intro st; exact le_refl _
  | cons a l ih =>
    intro st
    exact le_trans (ih (tryVisit P w h st a)) (tryVisit_measure_le P w h st a)

/-- Encoding a coordinate pair below the image bounds gives an index below
width * height. -/
theorem encode_lt {w h x y : ℕ} (hx : x < w) (hy : y < h) : y * w + x < w * h := by
  calc y * w + x < y * w + w := by omega
  _ = (y + 1) * w := by ring
  _ ≤ h * w := Nat.mul_le_mul_right w (by omega)
  _ = w * h := Nat.mul_comm h w

theorem encode_mod {w x y : ℕ} (hx : x < w) : (y * w + x) % w = x := by
  rw [Nat.add_comm, Nat.add_mul_mod_self_right]
  exact Nat.mod_eq_of_lt hx

theorem encode_div {w x y : ℕ} (hx : x < w) : (y * w + x) / w = y := by
  rw [Nat.add_comm, Nat.add_mul_div_right _ _ (by omega : 0 < w)]
  rw [Nat.div_eq_of_lt hx, Nat.zero_add]

theorem width_pos {w h i : ℕ} (hi : i < w * h) : 0 < w := by
  rcases Nat.eq_zero_or_pos w with h0 | h0
  · rw [h0, Nat.zero_mul] at hi; omega
  · exact h0

theorem height_pos {w h i : ℕ} (hi : i < w * h) : 0 < h := by
  rcases Nat.eq_zero_or_pos h with h0 | h0
  · rw [h0, Nat.mul_zero] at hi; omega
  · exact h0

theorem decode_lt_w {w h i : ℕ} (hi : i < w * h) : i % w < w :=
  Nat.mod_lt _ (width_pos hi)

theorem decode_lt_h {w h i : ℕ} (hi : i < w * h) : i / w < h :=
  Nat.div_lt_iff_lt_mul (width_pos hi) |>.mpr (Nat.mul_comm w h ▸ hi)

theorem decode_encode {w i : ℕ} : i / w * w + i % w = i := by
  rw [Nat.mul_comm]
  exact Nat.div_add_mod i w

/-- Four-connected adjacency between two in-bounds flat indices of a w by h
pixel grid: the decoded coordinates differ by exactly one horizontal or one
vertical step. -/
def AdjIdx (w h i j : ℕ) : Prop :=
  i < w * h ∧ j < w * h ∧
    ((j % w = i % w ∧ (j / w = i / w + 1 ∨ j / w + 1 = i / w)) ∨
     (j / w = i / w ∧ (j % w = i % w + 1 ∨ j % w + 1 = i % w)))

instance (w h i j : ℕ) : Decidable (AdjIdx w h i j) := by
  unfold AdjIdx; infer_instance

theorem adjIdx_symm {w h i j : ℕ} (hadj : AdjIdx w h i j) : AdjIdx w h j i := by
  unfold AdjIdx at hadj ⊢
  omega

/-- One step of the fill: move to a 4-adjacent index satisfying the
membership predicate. -/
def FillStep (P : ℕ → Bool) (w h : ℕ) (i j : ℕ) : Prop :=
  AdjIdx w h i j ∧ P j = true

/-- Reachability along fill steps: the reflexive-transitive closure. -/
def Reach (P : ℕ → Bool) (w h : ℕ) (s j : ℕ) : Prop :=
  Relation.ReflTransGen (FillStep P w h) s j

/-- What it means for index j to be the pixel freshly admitted by a probe of
neighbor coordinate n: the predicate holds and n is the in-bounds integer
coordinate pair encoding j. -/
def Probed (P : ℕ → Bool) (w h : ℕ) (j : ℕ) (n : ℤ × ℤ) : Prop :=
  P j = true ∧ 0 ≤ n.1 ∧ n.1 < (w : ℤ) ∧ 0 ≤ n.2 ∧ n.2 < (h : ℤ) ∧
    j = n.2.toNat * w + n.1.toNat

theorem probed_lt {P : ℕ → Bool} {w h : ℕ} {j : ℕ} {n : ℤ × ℤ}
    (hp : Probed P w h j n) : j < w * h := by
  obtain ⟨-, h1, h2, h3, h4, hj⟩ := hp
  subst hj
  exact encode_lt (by omega) (by omega)

theorem tryVisit_subset_one (P : ℕ → Bool) (w h : ℕ) (st : Finset ℕ × List ℕ)
    (n : ℤ × ℤ) : st.1 ⊆ (tryVisit P w h st n).1 := by
  unfold tryVisit
  split
  · split
    · exact Finset.subset_insert _ _
    · exact fun x hx => hx
  · exact fun x hx => hx

theorem tryVisit_subset_two (P : ℕ → Bool) (w h : ℕ) (st : Finset ℕ × List ℕ)
    (n : ℤ × ℤ) : ∀ j ∈ st.2, j ∈ (tryVisit P w h st n).2 := by
  intro j hj
  unfold tryVisit
  split
  · split
    · exact List.mem_cons_of_mem _ hj
    · exact hj
  · exact hj

theorem tryVisit_mem_one {P : ℕ → Bool} {w h : ℕ} {st : Finset ℕ × List ℕ}
    {n : ℤ × ℤ} {j : ℕ} (hj : j ∈ (tryVisit P w h st n).1) :
    j ∈ st.1 ∨ Probed P w h j n := by
  unfold tryVisit at hj
  split at hj
  · next hb =>
    split at hj
    · next hc =>
      rcases Finset.mem_insert.mp hj with he | hm
      · exact Or.inr ⟨he ▸ hc.2, hb.1, hb.2.1, hb.2.2.1, hb.2.2.2, he⟩
      · exact Or.inl hm
    · exact Or.inl hj
  · exact Or.inl hj

theorem tryVisit_mem_two {P : ℕ → Bool} {w h : ℕ} {st : Finset ℕ × List ℕ}
    {n : ℤ × ℤ} {j : ℕ} (hj : j ∈ (tryVisit P w h st n).2) :
    j ∈ st.2 ∨ Probed P w h j n := by
  unfold tryVisit at hj
  split at hj
  · next hb =>
    split at hj
    · next hc =>
      rcases List.mem_cons.mp hj with he | hm
      · exact Or.inr ⟨he ▸ hc.2, hb.1, hb.2.1, hb.2.2.1, hb.2.2.2, he⟩
      · exact Or.inl hm
    · exact Or.inl hj
  · exact Or.inl hj

theorem tryVisit_new_stack {P : ℕ → Bool} {w h : ℕ} {st : Finset ℕ × List ℕ}
    {n : ℤ × ℤ} {j : ℕ} (hj : j ∈ (tryVisit P w h st n).1) (hnew : j ∉ st.1) :
    j ∈ (tryVisit P w h st n).2 := by
  unfold tryVisit at hj ⊢
  split at hj
  · split at hj
    · rcases Finset.mem_insert.mp hj with he | hm
      · simp_all
      · exact absurd hm hnew
    · exact absurd hj hnew
  · exact absurd hj hnew

theorem tryVisit_covers {P : ℕ → Bool} {w h : ℕ} (st : Finset ℕ × List ℕ)
    {n : ℤ × ℤ} {j : ℕ} (hP : P j = true) (hx : ((j % w : ℕ) : ℤ) = n.1)
    (hy : ((j / w : ℕ) : ℤ) = n.2) (hj : j < w * h) :
    j ∈ (tryVisit P w h st n).1 := by
  have hw : 0 < w := width_pos hj
  have hxw := decode_lt_w hj
  have hyh := decode_lt_h hj
  have henc : n.2.toNat * w + n.1.toNat = j := by
    rw [← hx, ← hy]
    simp only [Int.toNat_ofNat]
    exact decode_encode
  unfold tryVisit
  rw [if_pos (show 0 ≤ n.1 ∧ n.1 < (w : ℤ) ∧ 0 ≤ n.2 ∧ n.2 < (h : ℤ) from
    ⟨hx ▸ Int.natCast_nonneg _, hx ▸ (by exact_mod_cast hxw),
     hy ▸ Int.natCast_nonneg _, hy ▸ (by exact_mod_cast hyh)⟩)]
  split
  · next hc => exact Finset.mem_insert.mpr (Or.inl henc.symm)
  · next hc =>
    rcases Decidable.not_and_iff_or_not.mp hc with hin | hnp
    · simpa using henc ▸ Decidable.not_not.mp hin
    · exact absurd (henc.symm ▸ hP) hnp

theorem foldl_tryVisit_subset_one (P : ℕ → Bool) (w h : ℕ) (l : List (ℤ × ℤ)) :
    ∀ st : Finset ℕ × List ℕ, st.1 ⊆ (l.foldl (tryVisit P w h) st).1 := by
  induction l with
  | nil => intro st x hx; exact hx
  | cons a l ih =>
    intro st x hx
    exact ih (tryVisit P w h st a) (tryVisit_subset_one P w h st a hx)

theorem foldl_tryVisit_subset_two (P : ℕ → Bool) (w h : ℕ) (l : List (ℤ × ℤ)) :
    ∀ st : Finset ℕ × List ℕ, ∀ j ∈ st.2, j ∈ (l.foldl (tryVisit P w h) st).2 := by
  induction l with
  | nil => intro st j hj; exact hj
  | cons a l ih =>
    intro st j hj
    exact ih (tryVisit P w h st a) j (tryVisit_subset_two P w h st a j hj)

theorem foldl_tryVisit_mem_one {P : ℕ → Bool} {w h : ℕ} {l : List (ℤ × ℤ)} :
    ∀ {st : Finset ℕ × List ℕ} {j : ℕ}, j ∈ (l.foldl (tryVisit P w h) st).1 →
      j ∈ st.1 ∨ ∃ n ∈ l, Probed P w h j n := by
  induction l with
  | nil => intro st j hj; exact Or.inl hj
  | cons a l ih =>
    intro st j hj
    rcases ih hj with hin | ⟨n, hn, hp⟩
    · rcases tryVisit_mem_one hin with hin' | hp
      · exact Or.inl hin'
      · exact Or.inr ⟨a, List.mem_cons_self a l, hp⟩
    · exact Or.inr ⟨n, List.mem_cons_of_mem a hn, hp⟩

theorem foldl_tryVisit_mem_two {P : ℕ → Bool} {w h : ℕ} {l : List (ℤ × ℤ)} :
    ∀ {st : Finset ℕ × List ℕ} {j : ℕ}, j ∈ (l.foldl (tryVisit P w h) st).2 →
      j ∈ st.2 ∨ ∃ n ∈ l, Probed P w h j n := by
  induction l with
  | nil => intro st j hj; exact Or.inl hj
  | cons a l ih =>
    intro st j hj
    rcases ih hj with hin | ⟨n, hn, hp⟩
    · rcases tryVisit_mem_two hin with hin' | hp
      · exact Or.inl hin'
      · exact Or.inr ⟨a, List.mem_cons_self a l, hp⟩
    · exact Or.inr ⟨n, List.mem_cons_of_mem a hn, hp⟩

theorem foldl_tryVisit_new_stack {P : ℕ → Bool} {w h : ℕ} {l : List (ℤ × ℤ)} :
    ∀ {st : Finset ℕ × List ℕ} {j : ℕ}, j ∈ (l.foldl (tryVisit P w h) st).1 →
      j ∉ st.1 → j ∈ (l.foldl (tryVisit P w h) st).2 := by
  induction l with
  | nil => intro st j hj hnew; exact absurd hj hnew
  | cons a l ih =>
    intro st j hj hnew
    by_cases hmid : j ∈ (tryVisit P w h st a).1
    · exact foldl_tryVisit_subset_two P w h l (tryVisit P w h st a) j
        (tryVisit_new_stack hmid hnew)
    · exact ih hj hmid

theorem foldl_tryVisit_covers {P : ℕ → Bool} {w h : ℕ} {l : List (ℤ × ℤ)} :
    ∀ (st : Finset ℕ × List ℕ) {n : ℤ × ℤ} {j : ℕ}, n ∈ l → P j = true →
      ((j % w : ℕ) : ℤ) = n.1 → ((j / w : ℕ) : ℤ) = n.2 → j < w * h →
      j ∈ (l.foldl (tryVisit P w h) st).1 := by
  induction l with
  | nil => intro st n j hn; exact absurd hn (List.not_mem_nil _)
  | cons a l ih =>
    intro st n j hn hP hx hy hj
    rcases List.mem_cons.mp hn with he | hm
    · subst he
      exact foldl_tryVisit_subset_one P w h l (tryVisit P w h st n)
        (tryVisit_covers st hP hx hy hj)
    · exact ih (tryVisit P w h st a) hm hP hx hy hj

theorem tryVisit_stack_in_visited {P : ℕ → Bool} {w h : ℕ}
    {st : Finset ℕ × List ℕ} {n : ℤ × ℤ}
    (hst : ∀ j ∈ st.2, j ∈ st.1) :
    ∀ j ∈ (tryVisit P w h st n).2, j ∈ (tryVisit P w h st n).1 := by
  intro j hj
  rcases tryVisit_mem_two hj with hm | hp
  · exact tryVisit_subset_one P w h st n (hst j hm)
  · have hlt := probed_lt hp
    obtain ⟨hP, h1, h2, h3, h4, hj'⟩ := hp
    have hnx : n.1.toNat < w := by omega
    exact tryVisit_covers st hP
      (by rw [hj', encode_mod hnx, Int.toNat_of_nonneg h1])
      (by rw [hj', encode_div hnx, Int.toNat_of_nonneg h3])
      hlt

theorem foldl_tryVisit_stack_in_visited {P : ℕ → Bool} {w h : ℕ}
    {l : List (ℤ × ℤ)} :
    ∀ {st : Finset ℕ × List ℕ}, (∀ j ∈ st.2, j ∈ st.1) →
      ∀ j ∈ (l.foldl (tryVisit P w h) st).2, j ∈ (l.foldl (tryVisit P w h) st).1 := by
  induction l with
  | nil => intro st hst; exact hst
  | cons a l ih =>
    intro st hst
    exact ih (tryVisit_stack_in_visited hst)

theorem probed_fillStep {P : ℕ → Bool} {w h i j : ℕ} {n : ℤ × ℤ}
    (hi : i < w * h) (hn : n ∈ neighborCoords (i % w) (i / w))
    (hp : Probed P w h j n) : FillStep P w h i j := by
  have hjlt : j < w * h := probed_lt hp
  obtain ⟨hP, h1, h2, h3, h4, hj⟩ := hp
  have hxw := decode_lt_w hi
  have hyh := decode_lt_h hi
  have hnx : n.1.toNat < w := by omega
  have hjx : j % w = n.1.toNat := by rw [hj]; exact encode_mod hnx
  have hjy : j / w = n.2.toNat := by rw [hj]; exact encode_div hnx
  refine ⟨⟨hi, hjlt, ?_⟩, hP⟩
  simp only [neighborCoords, List.mem_cons, List.not_mem_nil, or_false] at hn
  rcases hn with he | he | he | he <;> rw [he] at h1 h2 h3 h4 <;>
    simp only [he] at hjx hjy <;> omega

theorem fillStep_coord {P : ℕ → Bool} {w h i j : ℕ}
    (hstep : FillStep P w h i j) :
    ∃ n ∈ neighborCoords (i % w) (i / w),
      ((j % w : ℕ) : ℤ) = n.1 ∧ ((j / w : ℕ) : ℤ) = n.2 := by
  obtain ⟨⟨hi, hj, hcase⟩, hP⟩ := hstep
  simp only [neighborCoords, List.mem_cons, List.not_mem_nil, or_false]
  rcases hcase with ⟨hx, hy | hy⟩ | ⟨hy, hx | hx⟩
  · exact ⟨(↑(i % w), ↑(i / w) + 1), by tauto, by push_cast [hx]; ring, by push_cast [hy]; ring⟩
  · exact ⟨(↑(i % w), ↑(i / w) - 1), by tauto, by push_cast [hx]; ring, by push_cast [← hy]; ring⟩
  · exact ⟨(↑(i % w) + 1, ↑(i / w)), by tauto, by push_cast [hx]; ring, by push_cast [hy]; ring⟩
  · exact ⟨(↑(i % w) - 1, ↑(i / w)), by tauto, by push_cast [← hx]; ring, by push_cast [hy]; ring⟩

/-- Master invariant theorem for the flood-fill loop: starting from a
visited set containing the work list, with every non-queued visited index
already closed under fill steps, the loop (run with fuel exceeding the
measure) returns a visited set that contains the initial one, adds only
indices reachable from the work list, and is closed under fill steps. -/
theorem floodLoopF_spec {β : Type} (P : ℕ → Bool) (w h : ℕ) (f : β → ℕ → β) :
    ∀ (fuel : ℕ) (v : Finset ℕ) (s : List ℕ) (acc : β),
      fillMeasure w h (v, s) < fuel →
      (∀ j ∈ s, j ∈ v) →
      (∀ j ∈ s, j < w * h) →
      (∀ i ∈ v, i ∉ s → ∀ j, AdjIdx w h i j → P j = true → j ∈ v) →
      v ⊆ (floodLoopF P w h f fuel (v, s) acc).1 ∧
      (∀ j ∈ (floodLoopF P w h f fuel (v, s) acc).1,
        j ∈ v ∨ ∃ i ∈ s, Reach P w h i j) ∧
      (∀ i ∈ (floodLoopF P w h f fuel (v, s) acc).1, ∀ j, AdjIdx w h i j →
        P j = true → j ∈ (floodLoopF P w h f fuel (v, s) acc).1) := by
  intro fuel
  induction fuel with
  | zero => intro v s acc hm; exact absurd hm (Nat.not_lt_zero _)
  | succ fuel ih =>
    intro v s acc hm hsv hsb hcl
    match s with
    | [] =>
      refine ⟨fun x hx => hx, fun j hj => Or.inl hj, ?_⟩
      intro i hi j hadj hP
      exact hcl i hi (List.not_mem_nil i) j hadj hP
    | idx :: rest =>
      have hidx : idx < w * h := hsb idx (List.mem_cons_self idx rest)
      have heq : floodLoopF P w h f (fuel + 1) (v, idx :: rest) acc
          = floodLoopF P w h f fuel
              ((neighborCoords (idx % w) (idx / w)).foldl (tryVisit P w h) (v, rest))
              (f acc idx) := rfl
      set st := (neighborCoords (idx % w) (idx / w)).foldl (tryVisit P w h) (v, rest)
        with hstdef
      have hm' : fillMeasure w h st < fuel := by
        have h1 := foldl_tryVisit_measure_le P w h
          (neighborCoords (idx % w) (idx / w)) (v, rest)
        rw [← hstdef] at h1
        simp only [fillMeasure, List.length_cons] at h1 hm ⊢
        omega
      have hvst : v ⊆ st.1 := by
        rw [hstdef]
        exact foldl_tryVisit_subset_one P w h _ ((v, rest) : Finset ℕ × List ℕ)
      have hreststack : ∀ j ∈ rest, j ∈ st.2 := by
        rw [hstdef]
        intro j hj
        exact foldl_tryVisit_subset_two P w h _ ((v, rest) : Finset ℕ × List ℕ) j hj
      have hsv' : ∀ j ∈ st.2, j ∈ st.1 := by
        apply foldl_tryVisit_stack_in_visited
        intro j hj
        exact hsv j (List.mem_cons_of_mem idx hj)
      have hsb' : ∀ j ∈ st.2, j < w * h := by
        intro j hj
        rcases foldl_tryVisit_mem_two hj with hin | ⟨n, hn, hp⟩
        · exact hsb j (List.mem_cons_of_mem idx hin)
        · exact probed_lt hp
      have hcl' : ∀ i ∈ st.1, i ∉ st.2 → ∀ j, AdjIdx w h i j → P j = true →
          j ∈ st.1 := by
        intro i hi hins j hadj hP
        by_cases hiv : i ∈ v
        · by_cases hii : i = idx
          · subst hii
            obtain ⟨n, hn, hx, hy⟩ := fillStep_coord (⟨hadj, hP⟩ : FillStep P w h i j)
            exact foldl_tryVisit_covers ((v, rest) : Finset ℕ × List ℕ) hn hP hx hy
              hadj.2.1
          · by_cases hir : i ∈ rest
            · exact absurd (hreststack i hir) hins
            · have : i ∉ idx :: rest := by
                intro hmem
                rcases List.mem_cons.mp hmem with he | hm
                · exact hii he
                · exact hir hm
              exact hvst (hcl i hiv this j hadj hP)
        · exact absurd (foldl_tryVisit_new_stack hi hiv) hins
      obtain ⟨ha, hb, hc⟩ := ih st.1 st.2 (f acc idx)
        (by rw [Prod.mk.eta]; exact hm') hsv' hsb' hcl'
      rw [Prod.mk.eta] at ha hb hc
      rw [heq]
      refine ⟨fun x hx => ha (hvst hx), ?_, hc⟩
      intro j hj
      rcases hb j hj with hin | ⟨i, hi, hreach⟩
      · rcases foldl_tryVisit_mem_one hin with hin' | ⟨n, hn, hp⟩
        · exact Or.inl hin'
        · exact Or.inr ⟨idx, List.mem_cons_self idx rest,
            Relation.ReflTransGen.single (probed_fillStep hidx hn hp)⟩
      · rcases foldl_tryVisit_mem_two hi with hir | ⟨n, hn, hp⟩
        · exact Or.inr ⟨i, List.mem_cons_of_mem idx hir, hreach⟩
        · exact Or.inr ⟨idx, List.mem_cons_self idx rest,
            Relation.ReflTransGen.head (probed_fillStep hidx hn hp) hreach⟩

/-- Specification of a full flood-fill launch from a single seed on top of
an already-closed visited set V: the resulting visited set is exactly V
together with everything reachable from the seed, and it is closed under
fill steps. -/
theorem floodLoop_run_spec {β : Type} (P : ℕ → Bool) (w h : ℕ) (f : β → ℕ → β)
    (V : Finset ℕ) (s₀ : ℕ) (acc : β) (hb : s₀ < w * h)
    (hVc : ∀ i ∈ V, ∀ j, AdjIdx w h i j → P j = true → j ∈ V) :
    (∀ j, j ∈ (floodLoop P w h f (insert s₀ V, [s₀]) acc).1 ↔
      (j ∈ V ∨ Reach P w h s₀ j)) ∧
    (∀ i ∈ (floodLoop P w h f (insert s₀ V, [s₀]) acc).1, ∀ j, AdjIdx w h i j →
      P j = true → j ∈ (floodLoop P w h f (insert s₀ V, [s₀]) acc).1) := by
  have hmb : fillMeasure w h (insert s₀ V, [s₀]) < 2 * (w * h) + 1 + 1 := by
    have h1 : ((Finset.range (w * h)) \ insert s₀ V).card ≤ w * h := by
      calc ((Finset.range (w * h)) \ insert s₀ V).card
          ≤ (Finset.range (w * h)).card := Finset.card_le_card (Finset.sdiff_subset)
      _ = w * h := Finset.card_range _
    simp only [fillMeasure, List.length_cons, List.length_nil]
    omega
  obtain ⟨ha, hbm, hc⟩ := floodLoopF_spec P w h f (2 * (w * h) + 1 + 1)
    (insert s₀ V) [s₀] acc hmb
    (by intro j hj; rw [List.mem_singleton.mp hj]; exact Finset.mem_insert_self _ _)
    (by intro j hj; rw [List.mem_singleton.mp hj]; exact hb)
    (by
      intro i hi hins j hadj hP
      rcases Finset.mem_insert.mp hi with he | hm
      · exact absurd (List.mem_singleton.mpr he) hins
      · exact Finset.mem_insert_of_mem (hVc i hm j hadj hP))
  have hfl : floodLoop P w h f (insert s₀ V, [s₀]) acc
      = floodLoopF P w h f (2 * (w * h) + 1 + 1) (insert s₀ V, [s₀]) acc := rfl
  rw [hfl]
  refine ⟨?_, hc⟩
  intro j
  constructor
  · intro hj
    rcases hbm j hj with hin | ⟨i, hi, hreach⟩
    · rcases Finset.mem_insert.mp hin with he | hm
      · exact Or.inr (he ▸ Relation.ReflTransGen.refl)
      · exact Or.inl hm
    · rw [List.mem_singleton.mp hi] at hreach
      exact Or.inr hreach
  · intro hj
    rcases hj with hm | hreach
    · exact ha (Finset.mem_insert_of_mem hm)
    · induction hreach with
      | refl => exact ha (Finset.mem_insert_self _ _)
      | tail hsteps hstep ihr => exact hc _ ihr _ hstep.1 hstep.2

/-- The membership predicate of performFloodFill's inner loop on flat
indices: the pixel is not transparent and its Manhattan RGB distance to the
seed pixel's color is within the tolerance (source line: a greater than 0
and diff at most tolerance). -/
def selectP (img : Image) (sp : RGBA) (tolerance : ℕ) : ℕ → Bool := fun k =>
  decide (0 < (img.pix (k % img.width) (k / img.width)).a ∧
    pixelDist (img.pix (k % img.width) (k / img.width)) sp ≤ tolerance)

/-- Source function performFloodFill.  The source maintains the mask array
in lockstep with the visited array (both are written 1 at exactly the same
indices, seed included), so the returned mask is the indicator vector of
the final visited set.  Canvas acquisition is modelled as succeeding and
serving the image's own pixel buffer.  Seed coordinates are rationals (JS
numbers): the source bounds-checks the raw values and then floors them for
indexing. -/
def performFloodFill (img : Image) (startX startY : ℚ) (tolerance : ℕ) :
    Option (List ℕ) :=
  if startX < 0 ∨ (img.width : ℚ) ≤ startX ∨ startY < 0 ∨ (img.height : ℚ) ≤ startY then
    none
  else
    if (img.pix startX.floor.toNat startY.floor.toNat).a = 0 then none
    else
      some ((List.range (img.width * img.height)).map fun i =>
        if i ∈ (floodLoop
            (selectP img (img.pix startX.floor.toNat startY.floor.toNat) tolerance)
            img.width img.height (fun u _ => u)
            (insert (startY.floor.toNat * img.width + startX.floor.toNat) (∅ : Finset ℕ),
             [startY.floor.toNat * img.width + startX.floor.toNat]) ()).1
        then 1 else 0)

theorem getD_range_map {N idx : ℕ} (f : ℕ → ℕ) (h : idx < N) :
    ((List.range N).map f).getD idx 0 = f idx := by
  rw [List.getD_eq_getElem?_getD]
  rw [List.getElem?_map, List.getElem?_range h]
  rfl

theorem getD_range_map_ge {N idx : ℕ} (f : ℕ → ℕ) (h : N ≤ idx) :
    ((List.range N).map f).getD idx 0 = 0 := by
  rw [List.getD_eq_getElem?_getD]
  rw [List.getElem?_map]
  rw [List.getElem?_eq_none (by simpa using h)]
  rfl

/-- Claim C4: performFloodFill returns none exactly on an out-of-bounds
seed or a seed pixel with zero alpha; any returned mask has exactly
width * height entries. -/
theorem C4_floodFill_none_iff_and_complete (img : Image) (startX startY : ℚ)
    (tol : ℕ) :
    (performFloodFill img startX startY tol = none ↔
      (startX < 0 ∨ (img.width : ℚ) ≤ startX ∨ startY < 0 ∨
        (img.height : ℚ) ≤ startY ∨
        (img.pix startX.floor.toNat startY.floor.toNat).a = 0)) ∧
    (performFloodFill img startX startY tol).elim True
      (fun m => m.length = img.width * img.height) := by
  unfold performFloodFill
  by_cases hob : startX < 0 ∨ (img.width : ℚ) ≤ startX ∨ startY < 0 ∨
      (img.height : ℚ) ≤ startY
  · rw [if_pos hob]
    exact ⟨⟨fun _ => by tauto, fun _ => rfl⟩, trivial⟩
  · rw [if_neg hob]
    by_cases ha : (img.pix startX.floor.toNat startY.floor.toNat).a = 0
    · rw [if_pos ha]
      exact ⟨⟨fun _ => by tauto, fun _ => rfl⟩, trivial⟩
    · rw [if_neg ha]
      refine ⟨⟨fun hcontra => by simp at hcontra, fun hc => ?_⟩, by simp⟩
      rcases hc with hc | hc | hc | hc | hc <;> tauto

theorem floor_toNat_lt {q : ℚ} {n : ℕ} (h0 : 0 ≤ q) (hn : q < (n : ℚ)) :
    q.floor.toNat < n := by
  have h1 : q.floor < (n : ℤ) := Int.floor_lt.mpr (by exact_mod_cast hn)
  have h2 : 0 ≤ q.floor := Int.floor_nonneg.mpr h0
  omega

/-- Claim C10: whenever performFloodFill returns a mask, the seed pixel
itself is marked 1 regardless of the tolerance, so the mask is never
all-zero. -/
theorem C10_floodFill_seed_marked (img : Image) (startX startY : ℚ) (tol : ℕ)
    (hx0 : 0 ≤ startX) (hxw : startX < (img.width : ℚ))
    (hy0 : 0 ≤ startY) (hyh : startY < (img.height : ℚ))
    (ha : 0 < (img.pix startX.floor.toNat startY.floor.toNat).a) :
    ∃ m, performFloodFill img startX startY tol = some m ∧
      m.getD (startY.floor.toNat * img.width + startX.floor.toNat) 0 = 1 ∧
      m ≠ List.replicate (img.width * img.height) 0 := by
  have hsx : startX.floor.toNat < img.width := floor_toNat_lt hx0 hxw
  have hsy : startY.floor.toNat < img.height := floor_toNat_lt hy0 hyh
  have hseedlt : startY.floor.toNat * img.width + startX.floor.toNat
      < img.width * img.height := encode_lt hsx hsy
  have hseedmem : startY.floor.toNat * img.width + startX.floor.toNat ∈
      (floodLoop (selectP img (img.pix startX.floor.toNat startY.floor.toNat) tol)
        img.width img.height (fun u _ => u)
        (insert (startY.floor.toNat * img.width + startX.floor.toNat) (∅ : Finset ℕ),
         [startY.floor.toNat * img.width + startX.floor.toNat]) ()).1 := by
    obtain ⟨hiff, -⟩ := floodLoop_run_spec
      (selectP img (img.pix startX.floor.toNat startY.floor.toNat) tol)
      img.width img.height (fun u _ => u) ∅
      (startY.floor.toNat * img.width + startX.floor.toNat) () hseedlt
      (by intro i hi; exact absurd hi (Finset.not_mem_empty i))
    exact (hiff _).mpr (Or.inr Relation.ReflTransGen.refl)
  unfold performFloodFill
  rw [if_neg (by push_neg; exact ⟨hx0, hxw, hy0, hyh⟩)]
  rw [if_neg (by omega)]
  refine ⟨_, rfl, ?_, ?_⟩
  · rw [getD_range_map _ hseedlt, if_pos hseedmem]
  · intro heq
    have hval := congrArg
      (fun l : List ℕ => l.getD (startY.floor.toNat * img.width + startX.floor.toNat) 0)
      heq
    simp only at hval
    rw [getD_range_map _ hseedlt, if_pos hseedmem] at hval
    rw [List.getD_eq_getElem?_getD, List.getElem?_replicate, if_pos hseedlt] at hval
    simp at hval

/-- Witness for C10 at a concrete one-pixel image with tolerance 0. -/
theorem C10_floodFill_seed_marked_witness :
    ∃ m, performFloodFill ⟨1, 1, [⟨5, 5, 5, 255⟩]⟩ 0 0 0 = some m ∧
      m.getD 0 0 = 1 ∧ m ≠ List.replicate 1 0 :=
  C10_floodFill_seed_marked ⟨1, 1, [⟨5, 5, 5, 255⟩]⟩ 0 0 0
    (by norm_num) (by norm_num) (by norm_num) (by norm_num) (by decide)

/-- Four-connected adjacency of pixel coordinate pairs (x, y). -/
def AdjPix (p q : ℕ × ℕ) : Prop :=
  (q.1 = p.1 ∧ (q.2 = p.2 + 1 ∨ q.2 + 1 = p.2)) ∨
  (q.2 = p.2 ∧ (q.1 = p.1 + 1 ∨ q.1 + 1 = p.1))

/-- A pixel the flood selector may include, in the words of claim C3: in
bounds, alpha above zero, and Manhattan RGB distance to the seed pixel's
color at most the tolerance. -/
def SelectablePix (img : Image) (sp : RGBA) (tol : ℕ) (p : ℕ × ℕ) : Prop :=
  p.1 < img.width ∧ p.2 < img.height ∧ 0 < (img.pix p.1 p.2).a ∧
    pixelDist (img.pix p.1 p.2) sp ≤ tol

/-- Claim C3's notion of reachability: some nonempty 4-connected path from
s to q every pixel of which is selectable. -/
def PathReachable (img : Image) (sp : RGBA) (tol : ℕ) (s q : ℕ × ℕ) : Prop :=
  ∃ l : List (ℕ × ℕ), l.head? = some s ∧ l.getLast? = some q ∧
    l.Chain' AdjPix ∧ ∀ p ∈ l, SelectablePix img sp tol p

theorem pixelDist_self (p : RGBA) : pixelDist p p = 0 := by
  simp [pixelDist]

theorem selectP_iff {img : Image} {sp : RGBA} {tol : ℕ} {j : ℕ}
    (hj : j < img.width * img.height) :
    selectP img sp tol j = true ↔
      SelectablePix img sp tol (j % img.width, j / img.width) := by
  unfold selectP SelectablePix
  rw [decide_eq_true_eq]
  constructor
  · intro hp
    exact ⟨decode_lt_w hj, decode_lt_h hj, hp.1, hp.2⟩
  · intro hp
    exact ⟨hp.2.2.1, hp.2.2.2⟩

theorem fillStep_decode {img : Image} {sp : RGBA} {tol : ℕ} {b c : ℕ}
    (hstep : FillStep (selectP img sp tol) img.width img.height b c) :
    AdjPix (b % img.width, b / img.width) (c % img.width, c / img.width) ∧
      SelectablePix img sp tol (c % img.width, c / img.width) := by
  obtain ⟨⟨hb, hc, hcase⟩, hP⟩ := hstep
  exact ⟨hcase, (selectP_iff hc).mp hP⟩

theorem encode_fillStep {img : Image} {sp : RGBA} {tol : ℕ} {a b : ℕ × ℕ}
    (ha1 : a.1 < img.width) (ha2 : a.2 < img.height)
    (hadj : AdjPix a b) (hsel : SelectablePix img sp tol b) :
    FillStep (selectP img sp tol) img.width img.height
      (a.2 * img.width + a.1) (b.2 * img.width + b.1) := by
  obtain ⟨hb1, hb2, hba, hbd⟩ := hsel
  have hea := encode_lt ha1 ha2
  have heb := encode_lt hb1 hb2
  refine ⟨⟨hea, heb, ?_⟩, ?_⟩
  · rw [encode_mod ha1, encode_div ha1, encode_mod hb1, encode_div hb1]
    exact hadj
  · rw [selectP_iff heb, encode_mod hb1, encode_div hb1]
    exact ⟨hb1, hb2, hba, hbd⟩

/-- The coordinate-level step relation corresponding to the fill. -/
def SelStep (img : Image) (sp : RGBA) (tol : ℕ) (p q : ℕ × ℕ) : Prop :=
  AdjPix p q ∧ SelectablePix img sp tol q

theorem selStep_rtg_bounds {img : Image} {sp : RGBA} {tol : ℕ} {a b : ℕ × ℕ}
    (hr : Relation.ReflTransGen (SelStep img sp tol) a b)
    (ha1 : a.1 < img.width) (ha2 : a.2 < img.height) :
    b.1 < img.width ∧ b.2 < img.height := by
  induction hr with
  | refl => exact ⟨ha1, ha2⟩
  | tail hab hbc ih => exact ⟨hbc.2.1, hbc.2.2.1⟩

theorem selStep_rtg_to_reach {img : Image} {sp : RGBA} {tol : ℕ} {s q : ℕ × ℕ}
    (hs1 : s.1 < img.width) (hs2 : s.2 < img.height)
    (hr : Relation.ReflTransGen (SelStep img sp tol) s q) :
    Reach (selectP img sp tol) img.width img.height
      (s.2 * img.width + s.1) (q.2 * img.width + q.1) := by
  induction hr with
  | refl => exact Relation.ReflTransGen.refl
  | @tail b c hab hbc ih =>
    obtain ⟨hb1, hb2⟩ := selStep_rtg_bounds hab hs1 hs2
    exact Relation.ReflTransGen.tail ih (encode_fillStep hb1 hb2 hbc.1 hbc.2)

theorem reach_iff_selStep_rtg {img : Image} {sp : RGBA} {tol : ℕ} {s q : ℕ × ℕ}
    (hs1 : s.1 < img.width) (hs2 : s.2 < img.height)
    (hq1 : q.1 < img.width) (_hq2 : q.2 < img.height) :
    Reach (selectP img sp tol) img.width img.height
        (s.2 * img.width + s.1) (q.2 * img.width + q.1) ↔
      Relation.ReflTransGen (SelStep img sp tol) s q := by
  constructor
  · intro hr
    have key : ∀ j, Reach (selectP img sp tol) img.width img.height
        (s.2 * img.width + s.1) j →
        Relation.ReflTransGen (SelStep img sp tol) s
          (j % img.width, j / img.width) := by
      intro j hj
      induction hj with
      | refl =>
        rw [encode_mod hs1, encode_div hs1]
      | tail hab hbc ih =>
        exact Relation.ReflTransGen.tail ih
          ⟨(fillStep_decode hbc).1, (fillStep_decode hbc).2⟩
    have h1 := key _ hr
    rwa [encode_mod hq1, encode_div hq1] at h1
  · exact selStep_rtg_to_reach hs1 hs2

theorem path_to_selStep_rtg {img : Image} {sp : RGBA} {tol : ℕ} {q : ℕ × ℕ} :
    ∀ (l : List (ℕ × ℕ)) (a : ℕ × ℕ), (a :: l).Chain' AdjPix →
      (∀ p ∈ a :: l, SelectablePix img sp tol p) →
      (a :: l).getLast? = some q →
      Relation.ReflTransGen (SelStep img sp tol) a q := by
  intro l
  induction l with
  | nil =>
    intro a hch hsel hlast
    simp only [List.getLast?_singleton, Option.some_inj] at hlast
    exact hlast ▸ Relation.ReflTransGen.refl
  | cons b l ih =>
    intro a hch hsel hlast
    rw [List.chain'_cons] at hch
    refine Relation.ReflTransGen.head
      ⟨hch.1, hsel b (List.mem_cons_of_mem a (List.mem_cons_self b l))⟩ ?_
    exact ih b hch.2 (fun p hp => hsel p (List.mem_cons_of_mem a hp))
      (by rwa [List.getLast?_cons_cons] at hlast)

theorem selStep_rtg_to_path {img : Image} {sp : RGBA} {tol : ℕ} {s q : ℕ × ℕ}
    (hsel : SelectablePix img sp tol s)
    (hr : Relation.ReflTransGen (SelStep img sp tol) s q) :
    PathReachable img sp tol s q := by
  induction hr with
  | refl =>
    exact ⟨[s], rfl, rfl, List.chain'_singleton s, by
      intro p hp
      rw [List.mem_singleton.mp hp]
      exact hsel⟩
  | @tail b c hab hbc ih =>
    obtain ⟨l, hh, hl, hc, hmem⟩ := ih
    have hne : l ≠ [] := by
      intro h0
      rw [h0] at hh
      exact Option.noConfusion hh
    refine ⟨l ++ [c], ?_, ?_, ?_, ?_⟩
    · rwa [List.head?_append_of_ne_nil _ hne]
    · exact List.getLast?_concat l
    · rw [List.chain'_append]
      refine ⟨hc, List.chain'_singleton _, ?_⟩
      intro x hx y hy
      rw [hl, Option.mem_def, Option.some_inj] at hx
      simp only [List.head?_cons, Option.mem_def, Option.some_inj] at hy
      rw [← hx, ← hy]
      exact hbc.1
    · intro p hp
      rcases List.mem_append.mp hp with hin | hnew
      · exact hmem p hin
      · rw [List.mem_singleton.mp hnew]
        exact hbc.2

theorem pathReachable_iff_rtg {img : Image} {sp : RGBA} {tol : ℕ} {s q : ℕ × ℕ}
    (hsel : SelectablePix img sp tol s) :
    PathReachable img sp tol s q ↔
      Relation.ReflTransGen (SelStep img sp tol) s q := by
  constructor
  · rintro ⟨l, hh, hl, hc, hmem⟩
    match l with
    | [] => exact absurd hh (by simp)
    | a :: l' =>
      simp only [List.head?_cons, Option.some_inj] at hh
      subst hh
      exact path_to_selStep_rtg l' a hc hmem hl
  · exact selStep_rtg_to_path hsel

/-- Claim C3: for an in-bounds seed with positive alpha, the returned mask
marks a pixel 1 exactly when it is reachable from the floored seed by a
4-connected path of pixels that all have alpha above zero and Manhattan RGB
distance to the seed pixel's color within the tolerance. -/
theorem C3_floodFill_mask_iff_reachable (img : Image) (startX startY : ℚ)
    (tol : ℕ) (hx0 : 0 ≤ startX) (hxw : startX < (img.width : ℚ))
    (hy0 : 0 ≤ startY) (hyh : startY < (img.height : ℚ))
    (ha : 0 < (img.pix startX.floor.toNat startY.floor.toNat).a) :
    ∃ m, performFloodFill img startX startY tol = some m ∧
      ∀ x y, x < img.width → y < img.height →
        (m.getD (y * img.width + x) 0 = 1 ↔
          PathReachable img (img.pix startX.floor.toNat startY.floor.toNat) tol
            (startX.floor.toNat, startY.floor.toNat) (x, y)) := by
  have hsx : startX.floor.toNat < img.width := floor_toNat_lt hx0 hxw
  have hsy : startY.floor.toNat < img.height := floor_toNat_lt hy0 hyh
  have hseedlt : startY.floor.toNat * img.width + startX.floor.toNat
      < img.width * img.height := encode_lt hsx hsy
  have hsel : SelectablePix img (img.pix startX.floor.toNat startY.floor.toNat)
      tol (startX.floor.toNat, startY.floor.toNat) :=
    ⟨hsx, hsy, ha, by rw [pixelDist_self]; exact Nat.zero_le tol⟩
  obtain ⟨hiff, -⟩ := floodLoop_run_spec
    (selectP img (img.pix startX.floor.toNat startY.floor.toNat) tol)
    img.width img.height (fun u _ => u) ∅
    (startY.floor.toNat * img.width + startX.floor.toNat) () hseedlt
    (by intro i hi; exact absurd hi (Finset.not_mem_empty i))
  unfold performFloodFill
  rw [if_neg (by push_neg; exact ⟨hx0, hxw, hy0, hyh⟩)]
  rw [if_neg (by omega)]
  refine ⟨_, rfl, ?_⟩
  intro x y hx hy
  rw [getD_range_map _ (encode_lt hx hy)]
  by_cases hm : y * img.width + x ∈
      (floodLoop (selectP img (img.pix startX.floor.toNat startY.floor.toNat) tol)
        img.width img.height (fun u _ => u)
        (insert (startY.floor.toNat * img.width + startX.floor.toNat) (∅ : Finset ℕ),
         [startY.floor.toNat * img.width + startX.floor.toNat]) ()).1
  · rw [if_pos hm]
    refine ⟨fun _ => ?_, fun _ => rfl⟩
    have hreach : Reach
        (selectP img (img.pix startX.floor.toNat startY.floor.toNat) tol)
        img.width img.height
        (startY.floor.toNat * img.width + startX.floor.toNat)
        (y * img.width + x) := by
      rcases (hiff _).mp hm with h0 | hr
      · exact absurd h0 (Finset.not_mem_empty _)
      · exact hr
    exact (pathReachable_iff_rtg hsel).mpr
      ((reach_iff_selStep_rtg hsx hsy hx hy).mp hreach)
  · rw [if_neg hm]
    refine ⟨fun h0 => absurd h0 (by omega), fun hpath => absurd ?_ hm⟩
    exact (hiff _).mpr (Or.inr ((reach_iff_selStep_rtg hsx hsy hx hy).mpr
      ((pathReachable_iff_rtg hsel).mp hpath)))

/-- Witness for C3 at a concrete two-pixel image of one color. -/
theorem C3_floodFill_mask_iff_reachable_witness :
    ∃ m, performFloodFill ⟨2, 1, [⟨9, 9, 9, 255⟩, ⟨9, 9, 9, 255⟩]⟩ 0 0 30 = some m ∧
      ∀ x y, x < 2 → y < 1 →
        (m.getD (y * 2 + x) 0 = 1 ↔
          PathReachable ⟨2, 1, [⟨9, 9, 9, 255⟩, ⟨9, 9, 9, 255⟩]⟩ ⟨9, 9, 9, 255⟩ 30
            (0, 0) (x, y)) :=
  C3_floodFill_mask_iff_reachable ⟨2, 1, [⟨9, 9, 9, 255⟩, ⟨9, 9, 9, 255⟩]⟩ 0 0 30
    (by norm_num) (by norm_num) (by norm_num) (by norm_num) (by decide)

/-- A rectangle as in the source's Rect interface; the source's detect and
grid code produce integer fields, and the optional lasso path is a polygon
of image-space points. -/
structure Rect where
  x : ℕ
  y : ℕ
  width : ℕ
  height : ℕ
  path : Option (List (ℚ × ℚ)) := none
deriving DecidableEq, Repr

/-- The membership predicate of the detectSprites loops on flat indices:
alpha strictly above the threshold 10. -/
def detectP (img : Image) : ℕ → Bool := fun k =>
  decide (10 < (img.pix (k % img.width) (k / img.width)).a)

/-- The bounding-box accumulator (minX, maxX, minY, maxY) updated at each
pop of the detect fill, mirroring the source's four if-updates. -/
def bboxUpdate (w : ℕ) (acc : ℕ × ℕ × ℕ × ℕ) (idx : ℕ) : ℕ × ℕ × ℕ × ℕ :=
  (min acc.1 (idx % w), max acc.2.1 (idx % w),
   min acc.2.2.1 (idx / w), max acc.2.2.2 (idx / w))

/-- The rect the source pushes after a fill, from the accumulated bounding
box (minX, maxX, minY, maxY): x = max 0 minX, y = max 0 minY, width =
min (width - minX) (maxX - minX + 1), height likewise.  No path. -/
def rectFromBBox (w h : ℕ) (acc : ℕ × ℕ × ℕ × ℕ) : Rect :=
  { x := max 0 acc.1, y := max 0 acc.2.2.1,
    width := min (w - acc.1) (acc.2.1 - acc.1 + 1),
    height := min (h - acc.2.2.1) (acc.2.2.2 - acc.2.2.1 + 1),
    path := none }

/-- The outer scan of detectSprites, written over the list of flat indices:
the source iterates y over rows and x over columns, visiting exactly the
indices y * width + x in increasing order.  Each unvisited index whose
alpha exceeds the threshold launches the shared flood-fill loop seeded
there (the source seeds minX = maxX = x, minY = maxY = y and updates them
at every pop, which is the bboxUpdate fold), then emits the rect. -/
def detectGo (img : Image) : List ℕ → Finset ℕ → List Rect
  | [], _ => []
  | idx :: rest, visited =>
    if idx ∈ visited then detectGo img rest visited
    else if detectP img idx then
      rectFromBBox img.width img.height
          (floodLoop (detectP img) img.width img.height (bboxUpdate img.width)
            (insert idx visited, [idx])
            (idx % img.width, idx % img.width, idx / img.width, idx / img.width)).2 ::
        detectGo img rest
          (floodLoop (detectP img) img.width img.height (bboxUpdate img.width)
            (insert idx visited, [idx])
            (idx % img.width, idx % img.width, idx / img.width, idx / img.width)).1
    else detectGo img rest visited

/-- The unsorted rect list of detectSprites. -/
def detectRaw (img : Image) : List Rect :=
  detectGo img (List.range (img.width * img.height)) ∅

/-- The sort comparator of detectSprites: row difference when the absolute
row difference exceeds 10, column difference otherwise. -/
def rectCmp (a b : Rect) : ℤ :=
  if 10 < |(a.y : ℤ) - (b.y : ℤ)| then (a.y : ℤ) - (b.y : ℤ)
  else (a.x : ℤ) - (b.x : ℤ)

/-- The sorting relation induced by the comparator: a may precede b when
the comparator is nonpositive. -/
def rectLe (a b : Rect) : Prop := rectCmp a b ≤ 0

instance : DecidableRel rectLe := fun a b => by
  unfold rectLe; infer_instance

/-- Source function detectSprites: scan in row-major order, then sort with
the comparator.  JS Array.prototype.sort with a user comparator is modelled
as a stable insertion sort on the relation rectCmp a b ≤ 0 (ES2019 requires
sort to be stable, and on a consistent comparator every stable sort agrees;
on an inconsistent comparator the standard leaves only that the result is
some permutation, which the theorems below rely on). -/
def detectSprites (img : Image) : List Rect :=
  List.insertionSort rectLe (detectRaw img)

/-- The 4-connected component of seed s under the alpha threshold
predicate, as a set of flat indices. -/
noncomputable def componentFin (img : Image) (s : ℕ) : Finset ℕ :=
  (Finset.range (img.width * img.height)).filter
    (fun j => @decide (Reach (detectP img) img.width img.height s j)
      (Classical.propDecidable _))

theorem mem_componentFin {img : Image} {s j : ℕ} :
    j ∈ componentFin img s ↔
      j < img.width * img.height ∧
        Reach (detectP img) img.width img.height s j := by
  unfold componentFin
  rw [Finset.mem_filter, Finset.mem_range]
  constructor
  · intro ⟨h1, h2⟩
    exact ⟨h1, @of_decide_eq_true _ (Classical.propDecidable _) h2⟩
  · intro ⟨h1, h2⟩
    exact ⟨h1, @decide_eq_true _ (Classical.propDecidable _) h2⟩

/-- Minimum of a finite set of naturals, with a default for the empty set. -/
noncomputable def finsetMinD (S : Finset ℕ) (d : ℕ) : ℕ :=
  if hne : S.Nonempty then S.min' hne else d

/-- Maximum of a finite set of naturals, with a default for the empty set. -/
noncomputable def finsetMaxD (S : Finset ℕ) (d : ℕ) : ℕ :=
  if hne : S.Nonempty then S.max' hne else d

/-- The tight bounding box of the component of s, in the words of claim C1:
x = least x-coordinate, y = least y-coordinate, width = greatest x minus
least x plus one, height likewise. -/
noncomputable def specBBox (img : Image) (s : ℕ) : Rect :=
  { x := finsetMinD ((componentFin img s).image (· % img.width)) 0,
    y := finsetMinD ((componentFin img s).image (· / img.width)) 0,
    width := finsetMaxD ((componentFin img s).image (· % img.width)) 0
      - finsetMinD ((componentFin img s).image (· % img.width)) 0 + 1,
    height := finsetMaxD ((componentFin img s).image (· / img.width)) 0
      - finsetMinD ((componentFin img s).image (· / img.width)) 0 + 1,
    path := none }

/-- An index is a canonical component representative when its alpha exceeds
the threshold and it is the least index of its component: the pixel at
which the row-major scan first meets the component. -/
def IsMinSeed (img : Image) (i : ℕ) : Prop :=
  detectP img i = true ∧
    ∀ j, Reach (detectP img) img.width img.height i j → i ≤ j

/-- Boolean form of IsMinSeed (classically decided). -/
noncomputable def pMinSeed (img : Image) : ℕ → Bool :=
  fun i => @decide (IsMinSeed img i) (Classical.propDecidable _)

/-- The canonical representatives of all components, in increasing (scan)
order: one per 4-connected component of above-threshold pixels. -/
noncomputable def minSeeds (img : Image) : List ℕ :=
  (List.range (img.width * img.height)).filter (pMinSeed img)

theorem pMinSeed_iff {img : Image} {i : ℕ} :
    pMinSeed img i = true ↔ IsMinSeed img i := by
  unfold pMinSeed
  constructor
  · exact fun hp => @of_decide_eq_true _ (Classical.propDecidable _) hp
  · exact fun hp => @decide_eq_true _ (Classical.propDecidable _) hp

/-- The reading-order relation of claim C2 between two rects a before b:
same row (absolute row difference at most 10) means ascending x, different
rows mean ascending y. -/
def readingOrderOk (a b : Rect) : Prop :=
  if |(a.y : ℤ) - (b.y : ℤ)| ≤ 10 then a.x ≤ b.x else a.y ≤ b.y

instance (a b : Rect) : Decidable (readingOrderOk a b) := by
  unfold readingOrderOk; infer_instance

theorem rectLe_reading (a b : Rect) (hle : rectLe a b) : readingOrderOk a b := by
  unfold rectLe rectCmp at hle
  unfold readingOrderOk
  by_cases hgt : 10 < |(a.y : ℤ) - (b.y : ℤ)|
  · rw [if_pos hgt] at hle
    rw [if_neg (not_le.mpr hgt)]
    have : (a.y : ℤ) ≤ (b.y : ℤ) := by omega
    exact_mod_cast this
  · rw [if_neg hgt] at hle
    rw [if_pos (not_lt.mp hgt)]
    have : (a.x : ℤ) ≤ (b.x : ℤ) := by omega
    exact_mod_cast this

theorem not_rectLe_reading (a b : Rect) (hle : ¬ rectLe b a) : readingOrderOk a b := by
  unfold rectLe rectCmp at hle
  rw [not_le] at hle
  unfold readingOrderOk
  rw [abs_sub_comm] at hle
  by_cases hgt : 10 < |(a.y : ℤ) - (b.y : ℤ)|
  · rw [if_pos hgt] at hle
    rw [if_neg (not_le.mpr hgt)]
    have : (a.y : ℤ) ≤ (b.y : ℤ) := by omega
    exact_mod_cast this
  · rw [if_neg hgt] at hle
    rw [if_pos (not_lt.mp hgt)]
    have : (a.x : ℤ) ≤ (b.x : ℤ) := by omega
    exact_mod_cast this

theorem chain'_orderedInsert {α : Type} (r : α → α → Prop) [DecidableRel r]
    (R : α → α → Prop) (h1 : ∀ a b, r a b → R a b)
    (h2 : ∀ a b, ¬ r a b → R b a) :
    ∀ (l : List α) (a : α), l.Chain' R → (List.orderedInsert r a l).Chain' R := by
  intro l
  induction l with
  | nil =>
    intro a _
    exact List.chain'_singleton a
  | cons b l ih =>
    intro a hl
    rw [List.orderedInsert]
    split
    · next hr => exact hl.cons (h1 a b hr)
    · next hr =>
      refine List.chain'_cons'.mpr ⟨?_, ih a hl.tail⟩
      intro y hy
      rcases l with _ | ⟨c, l'⟩
      · simp only [List.orderedInsert, List.head?_cons, Option.mem_def,
          Option.some_inj] at hy
        rw [← hy]
        exact h2 a b hr
      · rw [List.orderedInsert] at hy
        split at hy
        · simp only [List.head?_cons, Option.mem_def, Option.some_inj] at hy
          rw [← hy]
          exact h2 a b hr
        · simp only [List.head?_cons, Option.mem_def, Option.some_inj] at hy
          rw [← hy]
          exact (List.chain'_cons.mp hl).1

theorem chain'_insertionSort {α : Type} (r : α → α → Prop) [DecidableRel r]
    (R : α → α → Prop) (h1 : ∀ a b, r a b → R a b)
    (h2 : ∀ a b, ¬ r a b → R b a) :
    ∀ l : List α, (List.insertionSort r l).Chain' R := by
  intro l
  induction l with
  | nil => exact List.chain'_nil
  | cons a l ih =>
    rw [List.insertionSort]
    exact chain'_orderedInsert r R h1 h2 _ a ih

/-- Amended claim C2: every two consecutive rects returned by detectSprites
satisfy the reading-order relation (under the stable-sort model of the JS
sort); the any-two form of the claim is refuted below, since the comparator
is cyclic on same-row chains that span more than 10 rows. -/
theorem C2_detect_consecutive_reading_order (img : Image) :
    (detectSprites img).Chain' readingOrderOk :=
  chain'_insertionSort rectLe readingOrderOk rectLe_reading
    (fun a b hr => not_rectLe_reading b a hr) (detectRaw img)

/-- A 3 by 13 image with three isolated opaque pixels at coordinates
(2, 0), (1, 6) and (0, 12): the comparator cycles on the three resulting
1 by 1 rects, so no output order can satisfy the claim's any-two reading
order. -/
def imgCyc : Image :=
  ⟨3, 13, (List.range 39).map (fun i =>
    if i = 2 ∨ i = 19 ∨ i = 36 then ⟨0, 0, 0, 255⟩ else ⟨0, 0, 0, 0⟩)⟩

set_option maxRecDepth 8000 in
/-- Counterexample to claim C2 as stated: on imgCyc the returned sequence
does not satisfy the reading-order relation between every two rects a
before b (the rects at (2, 0) and (1, 6) appear in that order yet are
same-row with descending x). -/
theorem C2_counterexample_pairwise :
    ¬ ((detectSprites imgCyc).Pairwise readingOrderOk) := by decide

theorem reach_endpoint {P : ℕ → Bool} {w h i j : ℕ} (hr : Reach P w h i j) :
    i = j ∨ P j = true := by
  induction hr with
  | refl => exact Or.inl rfl
  | tail hab hbc ih => exact Or.inr hbc.2

theorem reach_symm {P : ℕ → Bool} {w h i j : ℕ} (hP : P i = true)
    (hr : Reach P w h i j) : Reach P w h j i := by
  induction hr with
  | refl => exact Relation.ReflTransGen.refl
  | @tail b c hab hbc ih =>
    have hPb : P b = true := by
      rcases reach_endpoint hab with he | hp
      · exact he ▸ hP
      · exact hp
    exact Relation.ReflTransGen.head ⟨adjIdx_symm hbc.1, hPb⟩ ih

theorem tryVisit_stack_src {P : ℕ → Bool} {w h : ℕ} {st : Finset ℕ × List ℕ}
    {n : ℤ × ℤ} {j : ℕ} (hj : j ∈ (tryVisit P w h st n).2) :
    j ∈ st.2 ∨ j ∉ st.1 := by
  unfold tryVisit at hj
  split at hj
  · split at hj
    · next hc =>
      rcases List.mem_cons.mp hj with he | hm
      · exact Or.inr (he ▸ hc.1)
      · exact Or.inl hm
    · exact Or.inl hj
  · exact Or.inl hj

theorem foldl_tryVisit_stack_src {P : ℕ → Bool} {w h : ℕ} {l : List (ℤ × ℤ)} :
    ∀ {st : Finset ℕ × List ℕ} {j : ℕ}, j ∈ (l.foldl (tryVisit P w h) st).2 →
      j ∈ st.2 ∨ j ∉ st.1 := by
  induction l with
  | nil => intro st j hj; exact Or.inl hj
  | cons a l ih =>
    intro st j hj
    rcases ih hj with hin | hnot
    · rcases tryVisit_stack_src hin with h1 | h1
      · exact Or.inl h1
      · exact Or.inr h1
    · exact Or.inr (fun hm => hnot (tryVisit_subset_one P w h st a hm))

/-- The bounding-box accumulator (minX, maxX, minY, maxY) is correct for
the set S of indices: it bounds every decoded coordinate of S and each of
the four bounds is attained in S. -/
def bboxInv (w : ℕ) (S : Finset ℕ) (acc : ℕ × ℕ × ℕ × ℕ) : Prop :=
  (∀ i ∈ S, acc.1 ≤ i % w ∧ i % w ≤ acc.2.1 ∧
    acc.2.2.1 ≤ i / w ∧ i / w ≤ acc.2.2.2) ∧
  (∃ i ∈ S, i % w = acc.1) ∧ (∃ i ∈ S, i % w = acc.2.1) ∧
  (∃ i ∈ S, i / w = acc.2.2.1) ∧ (∃ i ∈ S, i / w = acc.2.2.2)

theorem bboxUpdate_inv {w : ℕ} {S : Finset ℕ} {acc : ℕ × ℕ × ℕ × ℕ} {idx : ℕ}
    (hInv : bboxInv w S acc) :
    bboxInv w (insert idx S) (bboxUpdate w acc idx) := by
  obtain ⟨hb, ⟨i1, hi1, he1⟩, ⟨i2, hi2, he2⟩, ⟨i3, hi3, he3⟩, ⟨i4, hi4, he4⟩⟩ := hInv
  unfold bboxUpdate bboxInv
  dsimp only
  refine ⟨?_, ?_, ?_, ?_, ?_⟩
  · intro i hi
    rcases Finset.mem_insert.mp hi with he | hm
    · subst he
      exact ⟨by omega, by omega, by omega, by omega⟩
    · have hbi := hb i hm
      exact ⟨by omega, by omega, by omega, by omega⟩
  · rcases le_total acc.1 (idx % w) with hle | hle
    · exact ⟨i1, Finset.mem_insert_of_mem hi1, by omega⟩
    · exact ⟨idx, Finset.mem_insert_self _ _, by omega⟩
  · rcases le_total acc.2.1 (idx % w) with hle | hle
    · exact ⟨idx, Finset.mem_insert_self _ _, by omega⟩
    · exact ⟨i2, Finset.mem_insert_of_mem hi2, by omega⟩
  · rcases le_total acc.2.2.1 (idx / w) with hle | hle
    · exact ⟨i3, Finset.mem_insert_of_mem hi3, by omega⟩
    · exact ⟨idx, Finset.mem_insert_self _ _, by omega⟩
  · rcases le_total acc.2.2.2 (idx / w) with hle | hle
    · exact ⟨idx, Finset.mem_insert_self _ _, by omega⟩
    · exact ⟨i4, Finset.mem_insert_of_mem hi4, by omega⟩

/-- Accumulator-correctness of the fill loop for the bounding-box fold: if
the accumulator is bbox-correct for a set D squeezed between the popped-so-
far discoveries and all discoveries, then at termination it is bbox-correct
for everything the fill discovered beyond the pre-existing visited set. -/
theorem floodLoopF_acc (P : ℕ → Bool) (w h : ℕ) :
    ∀ (fuel : ℕ) (v : Finset ℕ) (s : List ℕ) (acc : ℕ × ℕ × ℕ × ℕ)
      (old D : Finset ℕ),
      fillMeasure w h (v, s) < fuel →
      old ⊆ v →
      (∀ j ∈ s, j ∈ v ∧ j ∉ old) →
      ((v \ old) \ s.toFinset ⊆ D) → (D ⊆ v \ old) →
      bboxInv w D acc →
      bboxInv w ((floodLoopF P w h (bboxUpdate w) fuel (v, s) acc).1 \ old)
        (floodLoopF P w h (bboxUpdate w) fuel (v, s) acc).2 := by
  intro fuel
  induction fuel with
  | zero => intro v s acc old D hm; exact absurd hm (Nat.not_lt_zero _)
  | succ fuel ih =>
    intro v s acc old D hm hold hs hD1 hD2 hInv
    match s with
    | [] =>
      have h0 : (v \ old) \ (([] : List ℕ)).toFinset = v \ old := by simp
      have hDeq : D = v \ old := le_antisymm hD2 (h0 ▸ hD1)
      exact hDeq ▸ hInv
    | idx :: rest =>
      have hidxv : idx ∈ v := (hs idx (List.mem_cons_self idx rest)).1
      have hidxold : idx ∉ old := (hs idx (List.mem_cons_self idx rest)).2
      have heq : floodLoopF P w h (bboxUpdate w) (fuel + 1) (v, idx :: rest) acc
          = floodLoopF P w h (bboxUpdate w) fuel
              ((neighborCoords (idx % w) (idx / w)).foldl (tryVisit P w h) (v, rest))
              (bboxUpdate w acc idx) := rfl
      set st := (neighborCoords (idx % w) (idx / w)).foldl (tryVisit P w h) (v, rest)
        with hstdef
      have hm' : fillMeasure w h st < fuel := by
        have h1 := foldl_tryVisit_measure_le P w h
          (neighborCoords (idx % w) (idx / w)) (v, rest)
        rw [← hstdef] at h1
        simp only [fillMeasure, List.length_cons] at h1 hm ⊢
        omega
      have hvst : v ⊆ st.1 := by
        rw [hstdef]
        exact foldl_tryVisit_subset_one P w h _ ((v, rest) : Finset ℕ × List ℕ)
      have hreststack : ∀ j ∈ rest, j ∈ st.2 := by
        rw [hstdef]
        intro j hj
        exact foldl_tryVisit_subset_two P w h _ ((v, rest) : Finset ℕ × List ℕ) j hj
      have hold' : old ⊆ st.1 := fun x hx => hvst (hold hx)
      have hs' : ∀ j ∈ st.2, j ∈ st.1 ∧ j ∉ old := by
        intro j hj
        constructor
        · revert hj
          rw [hstdef]
          apply foldl_tryVisit_stack_in_visited
          intro j' hj'
          exact (hs j' (List.mem_cons_of_mem idx hj')).1
        · revert hj
          rw [hstdef]
          intro hj
          rcases foldl_tryVisit_stack_src hj with hin | hnot
          · exact (hs j (List.mem_cons_of_mem idx hin)).2
          · exact fun hjold => hnot (hold hjold)
      have hD1' : (st.1 \ old) \ st.2.toFinset ⊆ insert idx D := by
        intro j hj
        rw [Finset.mem_sdiff, Finset.mem_sdiff] at hj
        obtain ⟨⟨hj1, hjold⟩, hjs⟩ := hj
        rw [List.mem_toFinset] at hjs
        by_cases hjv : j ∈ v
        · by_cases hji : j = idx
          · exact Finset.mem_insert.mpr (Or.inl hji)
          · refine Finset.mem_insert.mpr (Or.inr (hD1 ?_))
            rw [Finset.mem_sdiff, Finset.mem_sdiff, List.mem_toFinset]
            refine ⟨⟨hjv, hjold⟩, ?_⟩
            intro hmem
            rcases List.mem_cons.mp hmem with he | hmr
            · exact hji he
            · exact hjs (hreststack j hmr)
        · exfalso
          apply hjs
          revert hj1
          rw [hstdef]
          intro hj1
          exact foldl_tryVisit_new_stack hj1 hjv
      have hD2' : insert idx D ⊆ st.1 \ old := by
        intro j hj
        rw [Finset.mem_sdiff]
        rcases Finset.mem_insert.mp hj with he | hm2
        · subst he
          exact ⟨hvst hidxv, hidxold⟩
        · have := hD2 hm2
          rw [Finset.mem_sdiff] at this
          exact ⟨hvst this.1, this.2⟩
      have hgoal := ih st.1 st.2 (bboxUpdate w acc idx) old (insert idx D)
        (by rw [Prod.mk.eta]; exact hm') hold' hs' hD1' hD2'
        (bboxUpdate_inv hInv)
      rw [Prod.mk.eta] at hgoal
      rw [heq]
      exact hgoal

theorem reach_lt {P : ℕ → Bool} {w h i j : ℕ} (hi : i < w * h)
    (hr : Reach P w h i j) : j < w * h := by
  induction hr with
  | refl => exact hi
  | tail hab hbc ih => exact hbc.1.2.1

theorem detectGo_cons (img : Image) (idx : ℕ) (rest : List ℕ)
    (visited : Finset ℕ) :
    detectGo img (idx :: rest) visited =
      if idx ∈ visited then detectGo img rest visited
      else if detectP img idx then
        rectFromBBox img.width img.height
            (floodLoop (detectP img) img.width img.height (bboxUpdate img.width)
              (insert idx visited, [idx])
              (idx % img.width, idx % img.width, idx / img.width, idx / img.width)).2 ::
          detectGo img rest
            (floodLoop (detectP img) img.width img.height (bboxUpdate img.width)
              (insert idx visited, [idx])
              (idx % img.width, idx % img.width, idx / img.width, idx / img.width)).1
      else detectGo img rest visited := rfl

/-- The bounding box accumulated by the fill seeded at k equals the tight
bounding box of k's component. -/
theorem rectFromBBox_eq_specBBox (img : Image) (k : ℕ)
    (hk : k < img.width * img.height) {acc : ℕ × ℕ × ℕ × ℕ}
    (hInv : bboxInv img.width (componentFin img k) acc) :
    rectFromBBox img.width img.height acc = specBBox img k := by
  obtain ⟨hb, ⟨i1, hi1, he1⟩, ⟨i2, hi2, he2⟩, ⟨i3, hi3, he3⟩, ⟨i4, hi4, he4⟩⟩ := hInv
  have hkc : k ∈ componentFin img k :=
    mem_componentFin.mpr ⟨hk, Relation.ReflTransGen.refl⟩
  have hne : (componentFin img k).Nonempty := ⟨k, hkc⟩
  have hneX : ((componentFin img k).image (· % img.width)).Nonempty :=
    hne.image _
  have hneY : ((componentFin img k).image (· / img.width)).Nonempty :=
    hne.image _
  have hminX : finsetMinD ((componentFin img k).image (· % img.width)) 0
      = acc.1 := by
    unfold finsetMinD
    rw [dif_pos hneX]
    apply le_antisymm
    · rw [← he1]
      exact Finset.min'_le _ _ (Finset.mem_image_of_mem (· % img.width) hi1)
    · apply Finset.le_min'
      intro y hy
      obtain ⟨i, hiC, hie⟩ := Finset.mem_image.mp hy
      rw [← hie]
      exact (hb i hiC).1
  have hmaxX : finsetMaxD ((componentFin img k).image (· % img.width)) 0
      = acc.2.1 := by
    unfold finsetMaxD
    rw [dif_pos hneX]
    apply le_antisymm
    · apply Finset.max'_le
      intro y hy
      obtain ⟨i, hiC, hie⟩ := Finset.mem_image.mp hy
      rw [← hie]
      exact (hb i hiC).2.1
    · rw [← he2]
      exact Finset.le_max' _ _ (Finset.mem_image_of_mem (· % img.width) hi2)
  have hminY : finsetMinD ((componentFin img k).image (· / img.width)) 0
      = acc.2.2.1 := by
    unfold finsetMinD
    rw [dif_pos hneY]
    apply le_antisymm
    · rw [← he3]
      exact Finset.min'_le _ _ (Finset.mem_image_of_mem (· / img.width) hi3)
    · apply Finset.le_min'
      intro y hy
      obtain ⟨i, hiC, hie⟩ := Finset.mem_image.mp hy
      rw [← hie]
      exact (hb i hiC).2.2.1
  have hmaxY : finsetMaxD ((componentFin img k).image (· / img.width)) 0
      = acc.2.2.2 := by
    unfold finsetMaxD
    rw [dif_pos hneY]
    apply le_antisymm
    · apply Finset.max'_le
      intro y hy
      obtain ⟨i, hiC, hie⟩ := Finset.mem_image.mp hy
      rw [← hie]
      exact (hb i hiC).2.2.2
    · rw [← he4]
      exact Finset.le_max' _ _ (Finset.mem_image_of_mem (· / img.width) hi4)
  have hxw : acc.2.1 < img.width :=
    he2 ▸ decode_lt_w (mem_componentFin.mp hi2).1
  have hyh : acc.2.2.2 < img.height :=
    he4 ▸ decode_lt_h (mem_componentFin.mp hi4).1
  have hmle : acc.1 ≤ acc.2.1 := he2 ▸ (hb i2 hi2).1
  have hmleY : acc.2.2.1 ≤ acc.2.2.2 := he4 ▸ (hb i4 hi4).2.2.1
  unfold rectFromBBox specBBox
  rw [hminX, hmaxX, hminY, hmaxY]
  simp only [Rect.mk.injEq]
  exact ⟨by omega, by omega, by omega, by omega, trivial⟩

/-- Main loop invariant theorem of detectSprites: scanning the still-
unvisited suffix of the row-major index order, where the visited set is
exactly the union of the components met so far, produces exactly the tight
bounding boxes of the components whose least index lies in the suffix, in
scan order. -/
theorem detectGo_spec (img : Image) :
    ∀ (n k : ℕ) (visited : Finset ℕ),
      k + n = img.width * img.height →
      (∀ j, j ∈ visited ↔ ∃ j₀, j₀ < k ∧ detectP img j₀ = true ∧
        Reach (detectP img) img.width img.height j₀ j) →
      detectGo img (List.range' k n) visited
        = ((List.range' k n).filter (pMinSeed img)).map (specBBox img) := by
  intro n
  induction n with
  | zero => intro k visited hk hInv; rfl
  | succ n ih =>
    intro k visited hk hInv
    have hkN : k < img.width * img.height := by omega
    have hrange : List.range' k (n + 1) = k :: List.range' (k + 1) n := by
      have := List.range'_succ k n 1
      simpa using this
    rw [hrange, detectGo_cons]
    by_cases hv : k ∈ visited
    · rw [if_pos hv]
      obtain ⟨j₀, hj₀k, hPj₀, hrj₀⟩ := (hInv k).mp hv
      have hnotmin : ¬ IsMinSeed img k := by
        intro ⟨hPk, hmin⟩
        exact absurd (hmin j₀ (reach_symm hPj₀ hrj₀)) (by omega)
      rw [List.filter_cons_of_neg (by
        intro hc
        exact hnotmin (pMinSeed_iff.mp hc))]
      apply ih (k + 1) visited (by omega)
      intro j
      rw [hInv j]
      constructor
      · rintro ⟨j₁, h1, h2, h3⟩
        exact ⟨j₁, by omega, h2, h3⟩
      · rintro ⟨j₁, h1, h2, h3⟩
        rcases Nat.lt_succ_iff_lt_or_eq.mp h1 with hlt | heq
        · exact ⟨j₁, hlt, h2, h3⟩
        · subst heq
          exact ⟨j₀, hj₀k, hPj₀, hrj₀.trans h3⟩
    · rw [if_neg hv]
      by_cases hP : detectP img k = true
      · rw [if_pos hP]
        have hcl : ∀ i ∈ visited, ∀ j, AdjIdx img.width img.height i j →
            detectP img j = true → j ∈ visited := by
          intro i hi j hadj hPj
          obtain ⟨j₀, h1, h2, h3⟩ := (hInv i).mp hi
          exact (hInv j).mpr ⟨j₀, h1, h2, Relation.ReflTransGen.tail h3 ⟨hadj, hPj⟩⟩
        obtain ⟨hiff, -⟩ := floodLoop_run_spec (detectP img) img.width img.height
          (bboxUpdate img.width) visited k
          (k % img.width, k % img.width, k / img.width, k / img.width) hkN hcl
        have hdisj : ∀ j, Reach (detectP img) img.width img.height k j →
            j ∉ visited := by
          intro j hr hjv
          obtain ⟨j₀, h1, h2, h3⟩ := (hInv j).mp hjv
          exact hv ((hInv k).mpr ⟨j₀, h1, h2, h3.trans (reach_symm hP hr)⟩)
        have hsetEq :
            (floodLoop (detectP img) img.width img.height (bboxUpdate img.width)
              (insert k visited, [k])
              (k % img.width, k % img.width, k / img.width, k / img.width)).1
              \ visited = componentFin img k := by
          apply Finset.ext
          intro j
          rw [Finset.mem_sdiff, mem_componentFin]
          constructor
          · rintro ⟨hm, hnv⟩
            rcases (hiff j).mp hm with hin | hr
            · exact absurd hin hnv
            · exact ⟨reach_lt hkN hr, hr⟩
          · rintro ⟨hjN, hr⟩
            exact ⟨(hiff j).mpr (Or.inr hr), hdisj j hr⟩
        have hmb : fillMeasure img.width img.height (insert k visited, [k])
            < 2 * (img.width * img.height) + 1 + 1 := by
          have h1 : ((Finset.range (img.width * img.height)) \ insert k visited).card
              ≤ img.width * img.height := by
            calc ((Finset.range (img.width * img.height)) \ insert k visited).card
                ≤ (Finset.range (img.width * img.height)).card :=
                  Finset.card_le_card (Finset.sdiff_subset)
            _ = img.width * img.height := Finset.card_range _
          simp only [fillMeasure, List.length_cons, List.length_nil]
          omega
        have hacc := floodLoopF_acc (detectP img) img.width img.height
          (2 * (img.width * img.height) + 1 + 1) (insert k visited) [k]
          (k % img.width, k % img.width, k / img.width, k / img.width)
          visited {k} hmb (Finset.subset_insert _ _)
          (by
            intro j hj
            rw [List.mem_singleton.mp hj]
            exact ⟨Finset.mem_insert_self _ _, hv⟩)
          (by
            intro j hj
            rw [Finset.mem_sdiff, Finset.mem_sdiff] at hj
            obtain ⟨⟨hj1, hj2⟩, hj3⟩ := hj
            rcases Finset.mem_insert.mp hj1 with he | hm
            · exact absurd (List.mem_toFinset.mpr (he ▸ List.mem_singleton_self k)) hj3
            · exact absurd hm hj2)
          (by
            intro j hj
            rw [Finset.mem_singleton.mp hj, Finset.mem_sdiff]
            exact ⟨Finset.mem_insert_self _ _, hv⟩)
          (by
            refine ⟨?_, ⟨k, Finset.mem_singleton_self k, rfl⟩,
              ⟨k, Finset.mem_singleton_self k, rfl⟩,
              ⟨k, Finset.mem_singleton_self k, rfl⟩,
              ⟨k, Finset.mem_singleton_self k, rfl⟩⟩
            intro i hi
            rw [Finset.mem_singleton.mp hi]
            exact ⟨le_refl _, le_refl _, le_refl _, le_refl _⟩)
        have hfl :
            floodLoop (detectP img) img.width img.height (bboxUpdate img.width)
              (insert k visited, [k])
              (k % img.width, k % img.width, k / img.width, k / img.width)
            = floodLoopF (detectP img) img.width img.height (bboxUpdate img.width)
              (2 * (img.width * img.height) + 1 + 1) (insert k visited, [k])
              (k % img.width, k % img.width, k / img.width, k / img.width) := rfl
        rw [← hfl] at hacc
        rw [hsetEq] at hacc
        have hrect := rectFromBBox_eq_specBBox img k hkN hacc
        have hmin : IsMinSeed img k := by
          refine ⟨hP, fun j hr => ?_⟩
          by_contra hc
          rw [not_le] at hc
          have hPj : detectP img j = true := by
            rcases reach_endpoint hr with he | hp
            · omega
            · exact hp
          exact hv ((hInv k).mpr ⟨j, hc, hPj, reach_symm hP hr⟩)
        rw [List.filter_cons_of_pos (pMinSeed_iff.mpr hmin)]
        rw [List.map_cons, hrect]
        congr 1
        apply ih (k + 1) _ (by omega)
        intro j
        rw [hiff j, hInv j]
        constructor
        · rintro (⟨j₁, h1, h2, h3⟩ | hr)
          · exact ⟨j₁, by omega, h2, h3⟩
          · exact ⟨k, by omega, hP, hr⟩
        · rintro ⟨j₁, h1, h2, h3⟩
          rcases Nat.lt_succ_iff_lt_or_eq.mp h1 with hlt | heq
          · exact Or.inl ⟨j₁, hlt, h2, h3⟩
          · subst heq
            exact Or.inr h3
      · rw [if_neg hP]
        have hnotmin : ¬ IsMinSeed img k := fun hmin => hP hmin.1
        rw [List.filter_cons_of_neg (by
          intro hc
          exact hnotmin (pMinSeed_iff.mp hc))]
        apply ih (k + 1) visited (by omega)
        intro j
        rw [hInv j]
        constructor
        · rintro ⟨j₁, h1, h2, h3⟩
          exact ⟨j₁, by omega, h2, h3⟩
        · rintro ⟨j₁, h1, h2, h3⟩
          rcases Nat.lt_succ_iff_lt_or_eq.mp h1 with hlt | heq
          · exact ⟨j₁, hlt, h2, h3⟩
          · subst heq
            exact absurd h2 hP

/-- The unsorted scan output is exactly the tight bounding boxes of the
components, one per component, ordered by least (first-scanned) index. -/
theorem detectRaw_eq (img : Image) :
    detectRaw img = (minSeeds img).map (specBBox img) := by
  unfold detectRaw minSeeds
  rw [List.range_eq_range']
  exact detectGo_spec img (img.width * img.height) 0 ∅ (by omega)
    (by
      intro j
      simp only [Finset.not_mem_empty, false_iff, not_exists]
      rintro j₀ ⟨h1, -, -⟩
      omega)

/-- Claim C1: detectSprites returns exactly one rect per 4-connected
component of pixels with alpha above 10 (the permutation of the map over
the canonical component representatives), and that rect is the component's
tight bounding box. -/
theorem C1_detect_components (img : Image) :
    (detectSprites img).Perm ((minSeeds img).map (specBBox img)) := by
  rw [← detectRaw_eq]
  exact List.perm_insertionSort rectLe (detectRaw img)

/-- The symbolic content of one composited frame: the exact parameters the
source passes to the canvas for this frame, namely the source crop, the
scaled and centered destination rectangle, the uniform scale, the optional
polygon clip in canvas coordinates, and the optional chroma-key pass over
the final canvas.  Together with the source image these determine the
produced bitmap; the resampling itself is the external PixelBuffer
collaborator, exactly as the spec's component split prescribes.  Numeric
canvas coordinates (JS numbers) are embedded as rationals. -/
structure DrawSpec where
  srcX : ℕ
  srcY : ℕ
  srcW : ℕ
  srcH : ℕ
  destX : ℚ
  destY : ℚ
  drawW : ℚ
  drawH : ℚ
  scale : ℚ
  clip : Option (List (ℚ × ℚ))
  chroma : Option Color
deriving DecidableEq, Repr

/-- A processed frame as in the source's ProcessedFrame interface: dense
id, output dimensions, source rect, and the data URL content modelled as
the draw parameters that produced it. -/
structure ProcessedFrame where
  id : ℕ
  draw : DrawSpec
  width : ℕ
  height : ℕ
  sourceRect : Rect
deriving DecidableEq, Repr

/-- Background-color resolution shared verbatim by both slicers: the
explicit color when given, otherwise the top-left pixel of the unmodified
source image (getBackgroundColor draws the image on a 1 by 1 canvas and
reads pixel (0, 0)). -/
def resolveBg (img : Image) (removeBackground : Bool)
    (backgroundColor : Option Color) : Option Color :=
  if removeBackground then
    some (backgroundColor.getD ⟨(img.pix 0 0).r, (img.pix 0 0).g, (img.pix 0 0).b⟩)
  else none

/-- One frame of sliceFromRects: scale is 1 under the auto policy and
min(finalWidth / rect.width, finalHeight / rect.height) under a custom
size; draw dimensions are the rect dimensions times the scale; the
destination is centered; a nonempty lasso path clips, each image-space
point mapped by localX = (p.x - rect.x) * scale + destX and likewise for
y; an enabled chroma key runs over the final canvas. -/
def mkFrame (img : Image) (customSize : Option (ℕ × ℕ)) (bgColor : Option Color)
    (finalWidth finalHeight : ℕ) (index : ℕ) (rect : Rect) : ProcessedFrame :=
  { id := index,
    draw :=
      { srcX := rect.x, srcY := rect.y, srcW := rect.width, srcH := rect.height,
        destX := ((finalWidth : ℚ) - rect.width *
          (match customSize with
           | some _ => min ((finalWidth : ℚ) / rect.width)
               ((finalHeight : ℚ) / rect.height)
           | none => 1)) / 2,
        destY := ((finalHeight : ℚ) - rect.height *
          (match customSize with
           | some _ => min ((finalWidth : ℚ) / rect.width)
               ((finalHeight : ℚ) / rect.height)
           | none => 1)) / 2,
        drawW := rect.width *
          (match customSize with
           | some _ => min ((finalWidth : ℚ) / rect.width)
               ((finalHeight : ℚ) / rect.height)
           | none => 1),
        drawH := rect.height *
          (match customSize with
           | some _ => min ((finalWidth : ℚ) / rect.width)
               ((finalHeight : ℚ) / rect.height)
           | none => 1),
        scale :=
          match customSize with
          | some _ => min ((finalWidth : ℚ) / rect.width)
              ((finalHeight : ℚ) / rect.height)
          | none => 1,
        clip :=
          match rect.path with
          | some pts =>
            if 0 < pts.length then
              some (pts.map (fun p =>
                ((p.1 - rect.x) *
                    (match customSize with
                     | some _ => min ((finalWidth : ℚ) / rect.width)
                         ((finalHeight : ℚ) / rect.height)
                     | none => 1) +
                  ((finalWidth : ℚ) - rect.width *
                    (match customSize with
                     | some _ => min ((finalWidth : ℚ) / rect.width)
                         ((finalHeight : ℚ) / rect.height)
                     | none => 1)) / 2,
                 (p.2 - rect.y) *
                    (match customSize with
                     | some _ => min ((finalWidth : ℚ) / rect.width)
                         ((finalHeight : ℚ) / rect.height)
                     | none => 1) +
                  ((finalHeight : ℚ) - rect.height *
                    (match customSize with
                     | some _ => min ((finalWidth : ℚ) / rect.width)
                         ((finalHeight : ℚ) / rect.height)
                     | none => 1)) / 2)))
            else none
          | none => none,
        chroma := bgColor },
    width := finalWidth,
    height := finalHeight,
    sourceRect := rect }

/-- The forEach loop of sliceFromRects, carrying the positional index that
becomes the frame id. -/
def sliceGo (img : Image) (customSize : Option (ℕ × ℕ)) (bgColor : Option Color)
    (finalWidth finalHeight : ℕ) : ℕ → List Rect → List ProcessedFrame
  | _, [] => []
  | i, r :: rs =>
    mkFrame img customSize bgColor finalWidth finalHeight i r ::
      sliceGo img customSize bgColor finalWidth finalHeight (i + 1) rs

/-- Source function sliceFromRects.  Under a custom size the final
dimensions are the caller's; otherwise they are the running maxima of the
rect dimensions (the source's forEach with if-greater updates), floored to
at least 1.  Surface acquisition is modelled as succeeding. -/
def sliceFromRects (img : Image) (rects : List Rect) (removeBackground : Bool)
    (backgroundColor : Option Color) (customSize : Option (ℕ × ℕ)) :
    List ProcessedFrame :=
  sliceGo img customSize (resolveBg img removeBackground backgroundColor)
    (match customSize with
     | some wh => wh.1
     | none => max 1 (rects.foldl (fun m r => if r.width > m then r.width else m) 0))
    (match customSize with
     | some wh => wh.2
     | none => max 1 (rects.foldl (fun m r => if r.height > m then r.height else m) 0))
    0 rects

/-- One frame of sliceSpritesheet for grid cell (r, c): the source's
frameId counter, incremented in row-major order, equals r * cols + c. -/
def sheetFrame (img : Image) (customSize : Option (ℕ × ℕ)) (bgColor : Option Color)
    (finalWidth finalHeight gw gh cols r c : ℕ) : ProcessedFrame :=
  { id := r * cols + c,
    draw :=
      { srcX := c * gw, srcY := r * gh, srcW := gw, srcH := gh,
        destX := ((finalWidth : ℚ) - gw *
          (match customSize with
           | some _ => min ((finalWidth : ℚ) / gw) ((finalHeight : ℚ) / gh)
           | none => 1)) / 2,
        destY := ((finalHeight : ℚ) - gh *
          (match customSize with
           | some _ => min ((finalWidth : ℚ) / gw) ((finalHeight : ℚ) / gh)
           | none => 1)) / 2,
        drawW := gw *
          (match customSize with
           | some _ => min ((finalWidth : ℚ) / gw) ((finalHeight : ℚ) / gh)
           | none => 1),
        drawH := gh *
          (match customSize with
           | some _ => min ((finalWidth : ℚ) / gw) ((finalHeight : ℚ) / gh)
           | none => 1),
        scale :=
          match customSize with
          | some _ => min ((finalWidth : ℚ) / gw) ((finalHeight : ℚ) / gh)
          | none => 1,
        clip := none,
        chroma := bgColor },
    width := finalWidth,
    height := finalHeight,
    sourceRect := { x := c * gw, y := r * gh, width := gw, height := gh, path := none } }

/-- Source function sliceSpritesheet (legacy grid mode): cell dimensions by
integer division, empty result on a degenerate cell, then the double
row-major loop with the same scaling, centering and background-removal
rules as sliceFromRects and no polygon path. -/
def sliceSpritesheet (img : Image) (rows cols : ℕ) (removeBackground : Bool)
    (backgroundColor : Option Color) (customSize : Option (ℕ × ℕ)) :
    List ProcessedFrame :=
  if img.width / cols = 0 ∨ img.height / rows = 0 then []
  else
    (List.range rows).flatMap (fun r => (List.range cols).map (fun c =>
      sheetFrame img customSize (resolveBg img removeBackground backgroundColor)
        (match customSize with
         | some wh => wh.1
         | none => img.width / cols)
        (match customSize with
         | some wh => wh.2
         | none => img.height / rows)
        (img.width / cols) (img.height / rows) cols r c))

/-- The rect list that sliceGrid implicitly builds, in the words of claim
C7: cells of cellWidth = floor(width / cols), cellHeight = floor(height /
rows) at (c * cellWidth, r * cellHeight), row-major, no path. -/
def gridRects (img : Image) (rows cols : ℕ) : List Rect :=
  (List.range rows).flatMap (fun r => (List.range cols).map (fun c =>
    { x := c * (img.width / cols), y := r * (img.height / rows),
      width := img.width / cols, height := img.height / rows, path := none }))

/-- The shared output width of the auto policy, in the words of claim C6:
the maximum rect width over the batch, floored to at least 1. -/
def autoWidth (rects : List Rect) : ℕ :=
  max 1 (rects.foldl (fun m r => max m r.width) 0)

/-- The shared output height of the auto policy. -/
def autoHeight (rects : List Rect) : ℕ :=
  max 1 (rects.foldl (fun m r => max m r.height) 0)

theorem foldl_if_max_width (rects : List Rect) (a : ℕ) :
    rects.foldl (fun m r => if r.width > m then r.width else m) a
      = rects.foldl (fun m r => max m r.width) a := by
  induction rects generalizing a with
  | nil => rfl
  | cons r rs ih =>
    simp only [List.foldl_cons]
    rw [show (if r.width > a then r.width else a) = max a r.width by
      split <;> omega]
    exact ih (max a r.width)

theorem foldl_if_max_height (rects : List Rect) (a : ℕ) :
    rects.foldl (fun m r => if r.height > m then r.height else m) a
      = rects.foldl (fun m r => max m r.height) a := by
  induction rects generalizing a with
  | nil => rfl
  | cons r rs ih =>
    simp only [List.foldl_cons]
    rw [show (if r.height > a then r.height else a) = max a r.height by
      split <;> omega]
    exact ih (max a r.height)

theorem sliceGo_map_size (img : Image) (bg : Option Color) (W H : ℕ) :
    ∀ (rs : List Rect) (i : ℕ),
      (sliceGo img none bg W H i rs).map (fun f => (f.width, f.height, f.draw.scale))
        = rs.map (fun _ => (W, H, (1 : ℚ))) := by
  intro rs
  induction rs with
  | nil => intro i; rfl
  | cons r rs ih =>
    intro i
    simp only [sliceGo, List.map_cons]
    rw [ih (i + 1)]
    rfl

/-- Claim C6: under the auto policy every frame has the shared size
(max rect width, max rect height, each floored to at least 1) and scale 1,
index-aligned with the input rects; the single-rect case is the instance
rects = [R]. -/
theorem C6_composite_auto_size (img : Image) (rects : List Rect) (rb : Bool)
    (bg : Option Color) :
    (sliceFromRects img rects rb bg none).map
        (fun f => (f.width, f.height, f.draw.scale))
      = rects.map (fun _ => (autoWidth rects, autoHeight rects, (1 : ℚ))) := by
  unfold sliceFromRects autoWidth autoHeight
  simp only
  rw [foldl_if_max_width, foldl_if_max_height]
  exact sliceGo_map_size img _ _ _ rects 0

theorem sliceGo_getElem (img : Image) (cs : Option (ℕ × ℕ)) (bg : Option Color)
    (W H : ℕ) : ∀ (rs : List Rect) (i j : ℕ),
    (sliceGo img cs bg W H j rs)[i]?
      = (rs[i]?).map (fun r => mkFrame img cs bg W H (j + i) r) := by
  intro rs
  induction rs with
  | nil => intro i j; rfl
  | cons r rs ih =>
    intro i j
    cases i with
    | zero =>
      simp only [sliceGo, List.getElem?_cons_zero, Option.map_some', Nat.add_zero]
    | succ n =>
      simp only [sliceGo, List.getElem?_cons_succ]
      rw [ih n (j + 1)]
      rw [show j + 1 + n = j + (n + 1) from by omega]

/-- Claim C5: under the custom policy with a positive-size rect at index i,
the frame at index i is exactly W by H, drawn at the uniform scale
min(W / rect.width, H / rect.height) with drawWidth and drawHeight the rect
dimensions times that single scale (no aspect distortion), destination
centered at ((W - drawWidth) / 2, (H - drawHeight) / 2), and the scaled
content fits inside the frame. -/
theorem C5_composite_custom_geometry (img : Image) (rects : List Rect)
    (rb : Bool) (bg : Option Color) (W H : ℕ) (i : ℕ) (r : Rect)
    (hir : rects[i]? = some r) (hw : 0 < r.width) (hh : 0 < r.height) :
    ∃ f, (sliceFromRects img rects rb bg (some (W, H)))[i]? = some f ∧
      f.width = W ∧ f.height = H ∧
      f.draw.scale = min ((W : ℚ) / r.width) ((H : ℚ) / r.height) ∧
      f.draw.drawW = r.width * f.draw.scale ∧
      f.draw.drawH = r.height * f.draw.scale ∧
      f.draw.destX = ((W : ℚ) - f.draw.drawW) / 2 ∧
      f.draw.destY = ((H : ℚ) - f.draw.drawH) / 2 ∧
      f.draw.drawW ≤ W ∧ f.draw.drawH ≤ H := by
  have hrw : (0 : ℚ) < r.width := by exact_mod_cast hw
  have hrh : (0 : ℚ) < r.height := by exact_mod_cast hh
  have hfitW : (r.width : ℚ) * min ((W : ℚ) / r.width) ((H : ℚ) / r.height)
      ≤ W := by
    calc (r.width : ℚ) * min ((W : ℚ) / r.width) ((H : ℚ) / r.height)
        ≤ (r.width : ℚ) * ((W : ℚ) / r.width) :=
          mul_le_mul_of_nonneg_left (min_le_left _ _) (le_of_lt hrw)
    _ = W := by
      rw [mul_comm]
      exact div_mul_cancel₀ _ (ne_of_gt hrw)
  have hfitH : (r.height : ℚ) * min ((W : ℚ) / r.width) ((H : ℚ) / r.height)
      ≤ H := by
    calc (r.height : ℚ) * min ((W : ℚ) / r.width) ((H : ℚ) / r.height)
        ≤ (r.height : ℚ) * ((H : ℚ) / r.height) :=
          mul_le_mul_of_nonneg_left (min_le_right _ _) (le_of_lt hrh)
    _ = H := by
      rw [mul_comm]
      exact div_mul_cancel₀ _ (ne_of_gt hrh)
  refine ⟨mkFrame img (some (W, H)) (resolveBg img rb bg) W H i r, ?_, rfl, rfl,
    rfl, rfl, rfl, rfl, rfl, hfitW, hfitH⟩
  unfold sliceFromRects
  rw [sliceGo_getElem img (some (W, H)) (resolveBg img rb bg) W H rects i 0, hir]
  simp

/-- Witness for C5: one 2 by 1 rect composited into a 4 by 4 custom frame. -/
theorem C5_composite_custom_geometry_witness :
    ∃ f, (sliceFromRects ⟨1, 1, [⟨0, 0, 0, 0⟩]⟩ [⟨0, 0, 2, 1, none⟩] false none
        (some (4, 4)))[0]? = some f ∧
      f.width = 4 ∧ f.height = 4 ∧
      f.draw.scale = min (((4 : ℕ) : ℚ) / ((2 : ℕ) : ℚ)) (((4 : ℕ) : ℚ) / ((1 : ℕ) : ℚ)) ∧
      f.draw.drawW = ((2 : ℕ) : ℚ) * f.draw.scale ∧
      f.draw.drawH = ((1 : ℕ) : ℚ) * f.draw.scale ∧
      f.draw.destX = (((4 : ℕ) : ℚ) - f.draw.drawW) / 2 ∧
      f.draw.destY = (((4 : ℕ) : ℚ) - f.draw.drawH) / 2 ∧
      f.draw.drawW ≤ ((4 : ℕ) : ℚ) ∧ f.draw.drawH ≤ ((4 : ℕ) : ℚ) :=
  C5_composite_custom_geometry ⟨1, 1, [⟨0, 0, 0, 0⟩]⟩ [⟨0, 0, 2, 1, none⟩]
    false none 4 4 0 ⟨0, 0, 2, 1, none⟩ (by decide) (by decide) (by decide)

theorem sliceGo_append (img : Image) (cs : Option (ℕ × ℕ)) (bg : Option Color)
    (W H : ℕ) : ∀ (l1 l2 : List Rect) (i : ℕ),
    sliceGo img cs bg W H i (l1 ++ l2)
      = sliceGo img cs bg W H i l1 ++ sliceGo img cs bg W H (i + l1.length) l2 := by
  intro l1
  induction l1 with
  | nil => intro l2 i; simp [sliceGo]
  | cons r rs ih =>
    intro l2 i
    simp only [List.cons_append, sliceGo, List.length_cons, List.append_eq]
    rw [ih l2 (i + 1)]
    rw [show i + 1 + rs.length = i + (rs.length + 1) from by omega]

theorem sliceGo_gridRow (img : Image) (cs : Option (ℕ × ℕ)) (bg : Option Color)
    (W H gw gh cols : ℕ) : ∀ (m c₀ r : ℕ),
    sliceGo img cs bg W H (r * cols + c₀) ((List.range' c₀ m).map (fun c =>
        ({ x := c * gw, y := r * gh, width := gw, height := gh,
           path := none } : Rect)))
      = (List.range' c₀ m).map (fun c =>
          sheetFrame img cs bg W H gw gh cols r c) := by
  intro m
  induction m with
  | zero => intro c₀ r; rfl
  | succ m ih =>
    intro c₀ r
    have hr : List.range' c₀ (m + 1) = c₀ :: List.range' (c₀ + 1) m := by
      simpa using List.range'_succ c₀ m 1
    rw [hr]
    simp only [List.map_cons, sliceGo]
    congr 1
    rw [show r * cols + c₀ + 1 = r * cols + (c₀ + 1) from by omega]
    exact ih (c₀ + 1) r

theorem sliceGo_grid (img : Image) (cs : Option (ℕ × ℕ)) (bg : Option Color)
    (W H gw gh cols : ℕ) : ∀ (m r₀ : ℕ),
    sliceGo img cs bg W H (r₀ * cols) ((List.range' r₀ m).flatMap (fun r =>
        (List.range cols).map (fun c =>
          ({ x := c * gw, y := r * gh, width := gw, height := gh,
             path := none } : Rect))))
      = (List.range' r₀ m).flatMap (fun r => (List.range cols).map (fun c =>
          sheetFrame img cs bg W H gw gh cols r c)) := by
  intro m
  induction m with
  | zero => intro r₀; rfl
  | succ m ih =>
    intro r₀
    have hr : List.range' r₀ (m + 1) = r₀ :: List.range' (r₀ + 1) m := by
      simpa using List.range'_succ r₀ m 1
    rw [hr]
    simp only [List.flatMap_cons]
    rw [sliceGo_append]
    congr 1
    · have h0 : List.range cols = List.range' 0 cols := List.range_eq_range' cols
      rw [h0]
      rw [show r₀ * cols = r₀ * cols + 0 from by omega]
      exact sliceGo_gridRow img cs bg W H gw gh cols cols 0 r₀
    · rw [List.length_map, List.length_range]
      rw [show r₀ * cols + cols = (r₀ + 1) * cols from by ring]
      exact ih (r₀ + 1)

theorem foldl_max_const_width {gw : ℕ} : ∀ (l : List Rect) (a : ℕ),
    (∀ r ∈ l, r.width = gw) → l ≠ [] →
    l.foldl (fun m r => max m r.width) a = max a gw := by
  intro l
  induction l with
  | nil => intro a _ hne; exact absurd rfl hne
  | cons r rs ih =>
    intro a hall hne
    simp only [List.foldl_cons]
    rw [hall r (List.mem_cons_self r rs)]
    by_cases hrs : rs = []
    · rw [hrs]; rfl
    · rw [ih (max a gw) (fun x hx => hall x (List.mem_cons_of_mem r hx)) hrs]
      omega

theorem foldl_max_const_height {gh : ℕ} : ∀ (l : List Rect) (a : ℕ),
    (∀ r ∈ l, r.height = gh) → l ≠ [] →
    l.foldl (fun m r => max m r.height) a = max a gh := by
  intro l
  induction l with
  | nil => intro a _ hne; exact absurd rfl hne
  | cons r rs ih =>
    intro a hall hne
    simp only [List.foldl_cons]
    rw [hall r (List.mem_cons_self r rs)]
    by_cases hrs : rs = []
    · rw [hrs]; rfl
    · rw [ih (max a gh) (fun x hx => hall x (List.mem_cons_of_mem r hx)) hrs]
      omega

/-- Claim C7: with at least one row and column and nondegenerate cells,
sliceSpritesheet produces exactly the frames sliceFromRects produces on the
row-major grid rect list (no polygon paths, dense ids), for every
combination of background removal, background color and output-size
policy. -/
theorem C7_sliceGrid_refines_composite (img : Image) (rows cols : ℕ)
    (rb : Bool) (bg : Option Color) (cs : Option (ℕ × ℕ))
    (hrows : 1 ≤ rows) (hcols : 1 ≤ cols)
    (hgw : 1 ≤ img.width / cols) (hgh : 1 ≤ img.height / rows) :
    sliceSpritesheet img rows cols rb bg cs
      = sliceFromRects img (gridRects img rows cols) rb bg cs := by
  have hne : gridRects img rows cols ≠ [] := by
    have hmem : (⟨0 * (img.width / cols), 0 * (img.height / rows),
        img.width / cols, img.height / rows, none⟩ : Rect)
        ∈ gridRects img rows cols := by
      unfold gridRects
      rw [List.mem_flatMap]
      exact ⟨0, List.mem_range.mpr (by omega),
        List.mem_map.mpr ⟨0, List.mem_range.mpr (by omega), rfl⟩⟩
    exact List.ne_nil_of_mem hmem
  have hallw : ∀ r ∈ gridRects img rows cols, r.width = img.width / cols := by
    intro r hr
    unfold gridRects at hr
    rw [List.mem_flatMap] at hr
    obtain ⟨rr, -, hmap⟩ := hr
    obtain ⟨c, -, hce⟩ := List.mem_map.mp hmap
    rw [← hce]
  have hallh : ∀ r ∈ gridRects img rows cols, r.height = img.height / rows := by
    intro r hr
    unfold gridRects at hr
    rw [List.mem_flatMap] at hr
    obtain ⟨rr, -, hmap⟩ := hr
    obtain ⟨c, -, hce⟩ := List.mem_map.mp hmap
    rw [← hce]
  unfold sliceSpritesheet sliceFromRects
  rw [if_neg (by omega)]
  cases cs with
  | some wh =>
    simp only
    conv_rhs => rw [gridRects, List.range_eq_range' rows]
    conv_lhs => rw [List.range_eq_range' rows]
    have hgrid := sliceGo_grid img (some wh) (resolveBg img rb bg) wh.1 wh.2
      (img.width / cols) (img.height / rows) cols rows 0
    rw [show (0 : ℕ) * cols = 0 from by omega] at hgrid
    exact hgrid.symm
  | none =>
    simp only
    rw [foldl_if_max_width, foldl_if_max_height,
      foldl_max_const_width _ 0 hallw hne, foldl_max_const_height _ 0 hallh hne]
    rw [show max 1 (max 0 (img.width / cols)) = img.width / cols from by omega]
    rw [show max 1 (max 0 (img.height / rows)) = img.height / rows from by omega]
    conv_rhs => rw [gridRects, List.range_eq_range' rows]
    conv_lhs => rw [List.range_eq_range' rows]
    have hgrid := sliceGo_grid img none (resolveBg img rb bg)
      (img.width / cols) (img.height / rows)
      (img.width / cols) (img.height / rows) cols rows 0
    rw [show (0 : ℕ) * cols = 0 from by omega] at hgrid
    exact hgrid.symm

/-- Witness for C7: a 2 by 2 grid on a 4 by 4 image. -/
theorem C7_sliceGrid_refines_composite_witness :
    sliceSpritesheet ⟨4, 4, List.replicate 16 ⟨0, 0, 0, 0⟩⟩ 2 2 false none none
      = sliceFromRects ⟨4, 4, List.replicate 16 ⟨0, 0, 0, 0⟩⟩
          (gridRects ⟨4, 4, List.replicate 16 ⟨0, 0, 0, 0⟩⟩ 2 2) false none none :=
  C7_sliceGrid_refines_composite ⟨4, 4, List.replicate 16 ⟨0, 0, 0, 0⟩⟩ 2 2
    false none none (by decide) (by decide) (by decide) (by decide)

example :
    (sliceSpritesheet ⟨4, 4, List.replicate 16 ⟨0, 0, 0, 0⟩⟩ 2 2 false none
        none).map (fun f => (f.id, f.sourceRect.x, f.sourceRect.y, f.width,
          f.height))
      = [(0, 0, 0, 2, 2), (1, 2, 0, 2, 2), (2, 0, 2, 2, 2), (3, 2, 2, 2, 2)] := by
  decide

theorem maskGo_length (mask : List ℕ) :
    ∀ (ps : List RGBA) (i : ℕ), (maskGo mask i ps).length = ps.length := by
  intro ps
  induction ps with
  | nil => intro i; rfl
  | cons p ps ih =>
    intro i
    simp only [maskGo, List.length_cons]
    rw [ih (i + 1)]

theorem maskGo_getElem (mask : List ℕ) :
    ∀ (ps : List RGBA) (i j : ℕ), (maskGo mask j ps)[i]?
      = (ps[i]?).map (fun p => if mask.getD (j + i) 0 = 1 then zeroAlpha p else p) := by
  intro ps
  induction ps with
  | nil => intro i j; rfl
  | cons p ps ih =>
    intro i j
    cases i with
    | zero =>
      simp only [maskGo, List.getElem?_cons_zero, Option.map_some', Nat.add_zero]
    | succ n =>
      simp only [maskGo, List.getElem?_cons_succ]
      rw [ih n (j + 1)]
      rw [show j + 1 + n = j + (n + 1) from by omega]

/-- Amended claim C9: applyTransparency performs no dimension check at all;
for every mask it returns normally, preserving the image dimensions and
buffer length, and zeroing exactly the alpha of the pixels whose index
carries mask value 1 (mask entries beyond the image and pixels beyond the
mask are ignored). -/
theorem C9_applyTransparency_no_dimension_check (img : Image) (mask : List ℕ) :
    (applyTransparency img mask).width = img.width ∧
    (applyTransparency img mask).height = img.height ∧
    (applyTransparency img mask).data.length = img.data.length ∧
    ∀ i : ℕ, (applyTransparency img mask).data[i]?
      = (img.data[i]?).map (fun p => if mask.getD i 0 = 1 then zeroAlpha p else p) := by
  refine ⟨rfl, rfl, maskGo_length mask img.data 0, ?_⟩
  intro i
  have h := maskGo_getElem mask img.data i 0
  rw [show (0 : ℕ) + i = i from by omega] at h
  exact h

/-- Counterexample to claim C9 as stated: a mask of length 1 applied to a
2 by 1 image (dimension mismatch) does not fail; it silently returns a
partially masked image, with the first pixel's alpha zeroed and the second
untouched. -/
theorem C9_counterexample_partial_masking :
    (1 : ℕ) ≠ (⟨2, 1, [⟨1, 2, 3, 9⟩, ⟨4, 5, 6, 9⟩]⟩ : Image).width
        * (⟨2, 1, [⟨1, 2, 3, 9⟩, ⟨4, 5, 6, 9⟩]⟩ : Image).height ∧
    applyTransparency ⟨2, 1, [⟨1, 2, 3, 9⟩, ⟨4, 5, 6, 9⟩]⟩ [1]
      = ⟨2, 1, [⟨1, 2, 3, 0⟩, ⟨4, 5, 6, 9⟩]⟩ := by
  exact ⟨by decide, by decide⟩

theorem chromaKeyPixel_idem (bg : Color) (tol : ℕ) (p : RGBA) :
    chromaKeyPixel bg tol (chromaKeyPixel bg tol p) = chromaKeyPixel bg tol p := by
  unfold chromaKeyPixel
  by_cases h0 : p.a = 0
  · simp [h0]
  · by_cases hd : colorDist p bg ≤ tol <;> simp [h0, hd]

/-- Claim C8: chromaKey leaves alpha-0 pixels entirely unchanged (skipped
before any color comparison), zeroes the alpha of an opaque pixel exactly
when the Manhattan distance to the background color is within tolerance
(other channels unchanged), and is idempotent on buffers. -/
theorem C8_chromaKey_skip_and_idem (bg : Color) (tol : ℕ) (data : List RGBA)
    (p : RGBA) :
    (p.a = 0 → chromaKeyPixel bg tol p = p) ∧
    (0 < p.a → chromaKeyPixel bg tol p =
      (if colorDist p bg ≤ tol then ⟨p.r, p.g, p.b, 0⟩ else p)) ∧
    chromaKeyData bg tol (chromaKeyData bg tol data) = chromaKeyData bg tol data := by
  refine ⟨?_, ?_, ?_⟩
  · intro h0
    unfold chromaKeyPixel
    rw [if_pos h0]
  · intro hpos
    unfold chromaKeyPixel
    rw [if_neg (by omega)]
  · unfold chromaKeyData
    rw [List.map_map]
    apply List.map_congr_left
    intro q _
    exact chromaKeyPixel_idem bg tol q

/-- Witness for C8 at concrete pixels and a concrete buffer. -/
theorem C8_chromaKey_skip_and_idem_witness :
    chromaKeyPixel ⟨1, 2, 3⟩ 30 ⟨9, 9, 9, 0⟩ = ⟨9, 9, 9, 0⟩ ∧
    chromaKeyPixel ⟨1, 2, 3⟩ 30 ⟨9, 9, 9, 255⟩ =
      (if colorDist ⟨9, 9, 9, 255⟩ ⟨1, 2, 3⟩ ≤ 30 then ⟨9, 9, 9, 0⟩
       else ⟨9, 9, 9, 255⟩) ∧
    chromaKeyData ⟨1, 2, 3⟩ 30 (chromaKeyData ⟨1, 2, 3⟩ 30
        [⟨9, 9, 9, 0⟩, ⟨9, 9, 9, 255⟩, ⟨200, 0, 0, 255⟩])
      = chromaKeyData ⟨1, 2, 3⟩ 30 [⟨9, 9, 9, 0⟩, ⟨9, 9, 9, 255⟩, ⟨200, 0, 0, 255⟩] :=
  ⟨(C8_chromaKey_skip_and_idem ⟨1, 2, 3⟩ 30 [] ⟨9, 9, 9, 0⟩).1 (by decide),
   (C8_chromaKey_skip_and_idem ⟨1, 2, 3⟩ 30 [] ⟨9, 9, 9, 255⟩).2.1 (by decide),
   (C8_chromaKey_skip_and_idem ⟨1, 2, 3⟩ 30
     [⟨9, 9, 9, 0⟩, ⟨9, 9, 9, 255⟩, ⟨200, 0, 0, 255⟩] ⟨0, 0, 0, 0⟩).2.2⟩


example : chromaKeyPixel ⟨10, 10, 10⟩ 30 ⟨20, 20, 20, 255⟩ = ⟨20, 20, 20, 0⟩ := by decide

example : chromaKeyPixel ⟨10, 10, 10⟩ 30 ⟨200, 20, 20, 255⟩ = ⟨200, 20, 20, 255⟩ := by decide

example : applyTransparency ⟨2, 1, [⟨1, 2, 3, 9⟩, ⟨4, 5, 6, 9⟩]⟩ [1] =
    ⟨2, 1, [⟨1, 2, 3, 0⟩, ⟨4, 5, 6, 9⟩]⟩ := by decide
